import Mathlib

/-!
Verification of the live tree-mirroring engine of
`WebKit/WebCore/inspector/InspectorDOMAgent.cpp`.

The development shallowly embeds the agent's data model and operations:
DOM nodes become an inductive tree with reference identity (a `ref` number
standing for the C++ pointer), the agent's hash maps become association
lists, and each member function of `InspectorDOMAgent` becomes a Lean
function on an explicit state record, emitting frontend records into an
output list.  External collaborators (the markup-replacement primitive,
the event-listener registry, the CSS store's per-document bookkeeping)
are modelled at the interface granularity the agent sees.
-/

set_option maxHeartbeats 1600000
set_option linter.unusedVariables false

namespace InspectorDOM

/-- Characters treated as whitespace by the trimming used in
`InspectorDOMAgent::isWhitespace` (WebKit `String::stripWhiteSpace`). -/
def isSpaceChar (c : Char) : Bool :=
  c = ' ' || c = '\t' || c = '\n' || c = '\r' || c = '\x0b' || c = '\x0c'

/-- WebKit `String::stripWhiteSpace`: drop leading and trailing whitespace. -/
def stripWhiteSpace (v : List Char) : List Char :=
  ((v.dropWhile isSpaceChar).reverse.dropWhile isSpaceChar).reverse

/-- Node type tags, mirroring the `Node::NodeType` constants used by the agent. -/
inductive NodeKind where
  | element
  | attributeNode
  | text
  | comment
  | document
  | documentType
  | fragment
  deriving DecidableEq

/-- Numeric `Node::NodeType` codes. -/
def nodeTypeCode : NodeKind → Nat
  | .element => 1
  | .attributeNode => 2
  | .text => 3
  | .comment => 8
  | .document => 9
  | .documentType => 10
  | .fragment => 11

/-- A DOM node.  `ref` models C++ reference identity (the `Node*` value);
`htmlEl` models `Node::isHTMLElement`, `frameOwner` models
`Node::isFrameOwnerElement`, and `contentDoc` models
`HTMLFrameOwnerElement::contentDocument()` (the nested scope of a boundary
node).  Serialization fields that no claim touches (`documentURL`, doctype
public/system ids) are omitted. -/
inductive DomTree where
  | node (ref : Nat) (kind : NodeKind) (htmlEl : Bool) (frameOwner : Bool)
      (nodeName localName value : List Char)
      (attrs : List (List Char × List Char))
      (contentDoc : Option DomTree) (children : List DomTree)

def DomTree.ref : DomTree → Nat
  | .node r _ _ _ _ _ _ _ _ _ => r

def DomTree.kind : DomTree → NodeKind
  | .node _ k _ _ _ _ _ _ _ _ => k

def DomTree.htmlEl : DomTree → Bool
  | .node _ _ h _ _ _ _ _ _ _ => h

def DomTree.frameOwner : DomTree → Bool
  | .node _ _ _ f _ _ _ _ _ _ => f

def DomTree.nodeName : DomTree → List Char
  | .node _ _ _ _ n _ _ _ _ _ => n

def DomTree.localName : DomTree → List Char
  | .node _ _ _ _ _ l _ _ _ _ => l

def DomTree.value : DomTree → List Char
  | .node _ _ _ _ _ _ v _ _ _ => v

def DomTree.attrs : DomTree → List (List Char × List Char)
  | .node _ _ _ _ _ _ _ a _ _ => a

def DomTree.contentDoc : DomTree → Option DomTree
  | .node _ _ _ _ _ _ _ _ d _ => d

def DomTree.children : DomTree → List DomTree
  | .node _ _ _ _ _ _ _ _ _ c => c

/-- `InspectorDOMAgent::isWhitespace`: a text node whose content strips to
the empty string.  (The C++ also returns false on a null node; null cases
are handled by `Option` at each call site.) -/
def isWs (t : DomTree) : Bool :=
  t.kind = NodeKind.text && (stripWhiteSpace t.value).isEmpty

mutual

/-- Size of a tree, counting the node, its content document and its children. -/
def DomTree.sz : DomTree → Nat
  | .node _ _ _ _ _ _ _ _ cd ch => 1 + szOpt cd + szList ch

def szOpt : Option DomTree → Nat
  | none => 0
  | some d => d.sz

def szList : List DomTree → Nat
  | [] => 0
  | t :: ts => t.sz + szList ts

end

theorem sz_pos (t : DomTree) : 1 ≤ t.sz := by
  cases t with
  | node r k h f nm ln v a cd ch =>
    simp only [DomTree.sz]
    omega

theorem sz_mem_le {t : DomTree} {l : List DomTree} (h : t ∈ l) : t.sz ≤ szList l := by
  induction l with
  | nil => cases h
  | cons x xs ih =>
    rcases List.mem_cons.mp h with rfl | h
    · simp only [szList]; omega
    · have := ih h
      simp only [szList]; omega

theorem szList_filter_le (p : DomTree → Bool) (l : List DomTree) :
    szList (l.filter p) ≤ szList l := by
  induction l with
  | nil => simp
  | cons x xs ih =>
    by_cases hx : p x
    · simp only [List.filter_cons, hx, if_true, szList]
      omega
    · simp only [List.filter_cons, hx, Bool.false_eq_true, if_false, szList]
      have := sz_pos x
      omega

theorem sz_contentDoc {t d : DomTree} (h : t.contentDoc = some d) : d.sz < t.sz := by
  cases t with
  | node r k hh f nm ln v a cd ch =>
    simp only [DomTree.contentDoc] at h
    subst h
    simp only [DomTree.sz, szOpt]
    omega

theorem szList_children_lt (t : DomTree) : szList t.children < t.sz := by
  cases t with
  | node r k hh f nm ln v a cd ch =>
    simp only [DomTree.children, DomTree.sz]
    cases cd <;> simp only [szOpt] <;> omega

/-- The sequence of visible children produced by the agent's traversal view:
the denotation of the loop `child = innerFirstChild(node); while (child)
child = innerNextSibling(child)`.  For a boundary node with a content
document, `innerFirstChild` returns the document's raw first child (no
whitespace skipping on that path) and the subsequent siblings skip
whitespace; otherwise all whitespace text children are skipped. -/
def visChildren (n : DomTree) : List DomTree :=
  if n.frameOwner then
    match n.contentDoc with
    | some d =>
      match d.children with
      | [] => []
      | x :: xs => x :: xs.filter (fun t => !isWs t)
    | none => n.children.filter (fun t => !isWs t)
  else n.children.filter (fun t => !isWs t)

theorem visChildren_not_fo {n : DomTree} (h : n.frameOwner = false) :
    visChildren n = n.children.filter (fun t => !isWs t) := by
  unfold visChildren
  rw [h]
  simp

theorem visChildren_fo_none {n : DomTree} (h : n.frameOwner = true)
    (h2 : n.contentDoc = none) :
    visChildren n = n.children.filter (fun t => !isWs t) := by
  unfold visChildren
  rw [h, h2, if_pos rfl]

theorem visChildren_fo_some {n d : DomTree} (h : n.frameOwner = true)
    (h2 : n.contentDoc = some d) :
    visChildren n =
      (match d.children with
       | [] => []
       | x :: xs => x :: xs.filter (fun t => !isWs t)) := by
  unfold visChildren
  rw [h, h2, if_pos rfl]

theorem szList_visChildren_lt (n : DomTree) : szList (visChildren n) < n.sz := by
  have h2 := szList_children_lt n
  have h1 := szList_filter_le (fun t => !isWs t) n.children
  by_cases hf : n.frameOwner
  · cases hcd : n.contentDoc with
    | none =>
      rw [visChildren_fo_none hf hcd]
      omega
    | some d =>
      rw [visChildren_fo_some hf hcd]
      have hd := sz_contentDoc hcd
      have h3 : szList d.children < d.sz := szList_children_lt d
      cases hch : d.children with
      | nil =>
        have := sz_pos n
        simp only [szList]
        omega
      | cons x xs =>
        rw [hch] at h3
        have h4 := szList_filter_le (fun t => !isWs t) xs
        simp only [szList] at h3 ⊢
        omega
  · rw [visChildren_not_fo (Bool.not_eq_true _ ▸ hf)]
    omega

theorem sz_mem_visChildren_lt {t n : DomTree} (h : t ∈ visChildren n) : t.sz < n.sz :=
  lt_of_le_of_lt (sz_mem_le h) (szList_visChildren_lt n)

/-- Association list lookup: first entry with the given key (models a
WebKit `HashMap` lookup; keys and values are both numbers here). -/
def aget {β : Type} (l : List (Nat × β)) (k : Nat) : Option β :=
  match l with
  | [] => none
  | (k', v) :: rest => if k' = k then some v else aget rest k

/-- `HashMap::set`: store a value under a key, replacing any previous entry. -/
def aset {β : Type} (l : List (Nat × β)) (k : Nat) (v : β) : List (Nat × β) :=
  (k, v) :: l.filter (fun p => p.1 ≠ k)

/-- `HashMap::remove`: drop the entry with the given key. -/
def aremove {β : Type} (l : List (Nat × β)) (k : Nat) : List (Nat × β) :=
  l.filter (fun p => p.1 ≠ k)

/-- A serialized node description, as built by
`InspectorDOMAgent::buildObjectForNode`.  `children` is `some` exactly when
the C++ sets the "children" property (array nonempty); `attrs` is `some`
for element nodes. -/
inductive NodeObj where
  | mk (id nodeType : Nat) (nodeName localName nodeValue : List Char)
      (childNodeCount : Option Nat) (children : Option (List NodeObj))
      (attrs : Option (List (List Char × List Char)))

def NodeObj.objId : NodeObj → Nat
  | .mk i _ _ _ _ _ _ _ => i

def NodeObj.objType : NodeObj → Nat
  | .mk _ t _ _ _ _ _ _ => t

def NodeObj.objValue : NodeObj → List Char
  | .mk _ _ _ _ v _ _ _ => v

def NodeObj.objChildren : NodeObj → Option (List NodeObj)
  | .mk _ _ _ _ _ _ c _ => c

/-- Records handed to the remote frontend, one constructor per
`RemoteInspectorFrontend` call the embedded operations perform. -/
inductive Msg where
  | setDocument (doc : Option NodeObj)
  | setChildNodes (parentId : Nat) (children : List NodeObj)
  | childNodeCountUpdated (parentId count : Nat)
  | childNodeInserted (parentId prevId : Nat) (child : NodeObj)
  | childNodeRemoved (parentId childId : Nat)
  | setDetachedRoot (root : NodeObj)
  | addNodesToSearchResult (ids : List Nat)
  | didSetOuterHTML (callId newId : Nat)

/-- The binding-related state of `InspectorDOMAgent`: the id counter, the
live map `m_documentNodeToIdMap`, the detached maps
`m_danglingNodeToIdMaps` (map reference 0 is the live map, reference k+1
is detached map k), the global index `m_idToNode` and `m_idToNodesMap`
(storing map references), the disclosure set `m_childrenRequested`, the
listened scopes `m_documents`, the CSS store's per-document entries, the
recently-inspected list `m_inspectedNodes`, and the stream of frontend
records emitted so far. -/
structure Core where
  lastNodeId : Nat
  liveMap : List (Nat × Nat)
  danglingMaps : List (List (Nat × Nat))
  idToNode : List (Nat × Nat)
  idToNodesMap : List (Nat × Nat)
  childrenRequested : List Nat
  documents : List Nat
  cssDocs : List Nat
  inspectedNodes : List Nat
  msgs : List Msg

/-- State established by the constructor: `m_lastNodeId(1)` and empty maps. -/
def initCore : Core :=
  { lastNodeId := 1, liveMap := [], danglingMaps := [], idToNode := [],
    idToNodesMap := [], childrenRequested := [], documents := [], cssDocs := [],
    inspectedNodes := [], msgs := [] }

def emit (c : Core) (m : Msg) : Core :=
  { c with msgs := c.msgs ++ [m] }

/-- The table of the identity map designated by a map reference. -/
def getTbl (c : Core) (mR : Nat) : List (Nat × Nat) :=
  if mR = 0 then c.liveMap else c.danglingMaps.getD (mR - 1) []

def setTbl (c : Core) (mR : Nat) (t : List (Nat × Nat)) : Core :=
  if mR = 0 then { c with liveMap := t }
  else { c with danglingMaps := c.danglingMaps.set (mR - 1) t }

/-- `NodeToIdMap::get`: 0 when the node is absent (WebKit hash maps
default-construct missing `long` values). -/
def mapGet (c : Core) (mR r : Nat) : Nat :=
  (aget (getTbl c mR) r).getD 0

/-- Validity of a map reference: either the live map, or an allocated
detached map (a live `NodeToIdMap*` in the C++). -/
def validMapRef (c : Core) (mR : Nat) : Prop :=
  mR = 0 ∨ mR - 1 < c.danglingMaps.length

/-- `InspectorDOMAgent::bind`: return the existing id if present, else
allocate `m_lastNodeId++` and record the binding in the given map, the
global index and the id-to-map table. -/
def bind (c : Core) (r mR : Nat) : Nat × Core :=
  let id := mapGet c mR r
  if id ≠ 0 then (id, c)
  else
    let idN := c.lastNodeId
    let c := { c with lastNodeId := c.lastNodeId + 1 }
    let c := setTbl c mR (aset (getTbl c mR) r idN)
    let c := { c with idToNode := aset c.idToNode idN r,
                      idToNodesMap := aset c.idToNodesMap idN mR }
    (idN, c)

/-- `InspectorDOMAgent::startListening`: no-op when already listening,
otherwise register the scope (listener registration itself is external). -/
def startListening (c : Core) (docRef : Nat) : Core :=
  if docRef ∈ c.documents then c
  else { c with documents := c.documents ++ [docRef] }

/-- `InspectorDOMAgent::stopListening`. -/
def stopListening (c : Core) (docRef : Nat) : Core :=
  if docRef ∈ c.documents then
    { c with documents := c.documents.filter (fun x => x ≠ docRef) }
  else c

/-- `InspectorCSSStore::removeDocument`, at the granularity the agent sees. -/
def removeCssDoc (c : Core) (docRef : Nat) : Core :=
  { c with cssDocs := c.cssDocs.filter (fun x => x ≠ docRef) }

/-- The state effect of calling `innerFirstChild` on a node: for a boundary
node with a content document, the traversal starts listening on it. -/
def touchScope (c : Core) (n : DomTree) : Core :=
  if n.frameOwner then
    match n.contentDoc with
    | some d => startListening c d.ref
    | none => c
  else c

/-- The boundary-node prologue of `InspectorDOMAgent::unbind`: stop
listening on the nested scope and drop its CSS store entry.  It runs
before the id check, whether or not the node is bound. -/
def unbindPrelude (c : Core) (n : DomTree) : Core :=
  if n.frameOwner then
    match n.contentDoc with
    | some d => removeCssDoc (stopListening c d.ref) d.ref
    | none => c
  else c

/-- The two removals `m_idToNode.remove(id); nodesMap->remove(node)`. -/
def unbindRemove (c : Core) (r id mR : Nat) : Core :=
  setTbl { c with idToNode := aremove c.idToNode id } mR
    (aremove (getTbl { c with idToNode := aremove c.idToNode id } mR) r)

/-- `m_childrenRequested.remove(id)` (hash-set removal). -/
def clearDisclosure (c : Core) (id : Nat) : Core :=
  { c with childrenRequested := c.childrenRequested.filter (fun x => x ≠ id) }

mutual

/-- `InspectorDOMAgent::unbind`: for a boundary node first stop listening
on its nested scope and drop the CSS store entry; then, if the node has an
id in the given map, remove it from the global index and the map, and if
its children were disclosed clear the disclosure flag and recursively
unbind every visible child. -/
def unbind (c : Core) (n : DomTree) (mR : Nat) : Core :=
  let c0 := unbindPrelude c n
  let id := mapGet c0 mR n.ref
  if id = 0 then c0
  else if id ∈ (unbindRemove c0 n.ref id mR).childrenRequested then
    unbindList (touchScope (clearDisclosure (unbindRemove c0 n.ref id mR) id) n)
      (visChildren n) mR
  else unbindRemove c0 n.ref id mR
termination_by 3 * n.sz + 1
decreasing_by
  have := szList_visChildren_lt n
  omega

def unbindList (c : Core) (ts : List DomTree) (mR : Nat) : Core :=
  match ts with
  | [] => c
  | t :: rest => unbindList (unbind c t mR) rest mR
termination_by 3 * szList ts + 2
decreasing_by
  · simp only [szList]
    omega
  · have := sz_pos t
    simp only [szList]
    omega

end

theorem head?_mem {α : Type} {l : List α} {a : α} (h : l.head? = some a) : a ∈ l := by
  cases l with
  | nil => simp at h
  | cons x xs =>
    simp only [List.head?_cons, Option.some.injEq] at h
    subst h
    exact List.mem_cons_self _ _

/-- Node types for which `buildObjectForNode` serializes children
(element, document, fragment). -/
def containerKind (k : NodeKind) : Bool :=
  k = NodeKind.element || k = NodeKind.document || k = NodeKind.fragment

/-- `InspectorDOMAgent::innerChildNodeCount`: length of the visible child
sequence; walking it touches a boundary node's nested scope. -/
def innerChildNodeCount (c : Core) (n : DomTree) : Nat × Core :=
  ((visChildren n).length, touchScope c n)

/-- The name/localName/nodeValue triple set by the `switch` in
`buildObjectForNode`. -/
def nodeFields (n : DomTree) : List Char × List Char × List Char :=
  match n.kind with
  | .text => ([], [], n.value)
  | .comment => ([], [], n.value)
  | .attributeNode => ([], n.localName, [])
  | .fragment => ([], [], [])
  | _ => (n.nodeName, n.localName, [])

mutual

/-- `InspectorDOMAgent::buildObjectForNode`: bind the node, serialize its
type-dependent name fields, and for container nodes the visible child
count, the (depth-limited) children array — attached only when nonempty —
and, for elements, the attribute pairs. -/
def buildObjectForNode (c : Core) (n : DomTree) (depth : Int) (mR : Nat) :
    NodeObj × Core :=
  let p := bind c n.ref mR
  let fs := nodeFields n
  if containerKind n.kind then
    let q := innerChildNodeCount p.2 n
    let r := buildArrayForContainerChildren q.2 n depth mR
    let children := if r.1.length > 0 then some r.1 else none
    let attrs := if n.kind = NodeKind.element then some n.attrs else none
    (NodeObj.mk p.1 (nodeTypeCode n.kind) fs.1 fs.2.1 fs.2.2 (some q.1) children attrs,
     r.2)
  else
    (NodeObj.mk p.1 (nodeTypeCode n.kind) fs.1 fs.2.1 fs.2.2 none none none, p.2)
termination_by 3 * n.sz + 1
decreasing_by
  have := szList_visChildren_lt n
  omega

/-- `InspectorDOMAgent::buildArrayForContainerChildren`: at depth 0,
special-case a sole visible text child; otherwise decrement a positive
depth and serialize every visible child. -/
def buildArrayForContainerChildren (c : Core) (container : DomTree) (depth : Int)
    (mR : Nat) : List NodeObj × Core :=
  if depth = 0 then
    let q := innerChildNodeCount c container
    if q.1 = 1 then
      let c1 := touchScope q.2 container
      match h : (visChildren container).head? with
      | some child =>
        if child.kind = NodeKind.text then
          let r := buildObjectForNode c1 child 0 mR
          ([r.1], r.2)
        else ([], c1)
      | none => ([], c1)
    else ([], q.2)
  else
    let d := if depth > 0 then depth - 1 else depth
    let c1 := touchScope c container
    buildList c1 (visChildren container) d mR
termination_by 3 * container.sz
decreasing_by
  · have := sz_mem_visChildren_lt (head?_mem h)
    omega
  · have := szList_visChildren_lt container
    omega

def buildList (c : Core) (ts : List DomTree) (depth : Int) (mR : Nat) :
    List NodeObj × Core :=
  match ts with
  | [] => ([], c)
  | t :: rest =>
    let r := buildObjectForNode c t depth mR
    let r2 := buildList r.2 rest depth mR
    (r.1 :: r2.1, r2.2)
termination_by 3 * szList ts + 2
decreasing_by
  · simp only [szList]
    omega
  · have := sz_pos t
    simp only [szList]
    omega

end

theorem szOpt_contentDoc_lt (t : DomTree) : szOpt t.contentDoc < t.sz := by
  cases t with
  | node r k h f nm ln v a cd ch =>
    simp only [DomTree.contentDoc, DomTree.sz]
    omega

mutual

/-- Locate the node carrying a given reference in a tree, descending into
children and content documents (the node universe seen through a root). -/
def findInTree (t : DomTree) (r : Nat) : Option DomTree :=
  if t.ref = r then some t
  else
    match findInOpt t.contentDoc r with
    | some x => some x
    | none => findInList t.children r
termination_by 2 * t.sz
decreasing_by
  · have := szOpt_contentDoc_lt t
    omega
  · have := szList_children_lt t
    omega

def findInOpt (o : Option DomTree) (r : Nat) : Option DomTree :=
  match o with
  | none => none
  | some d => findInTree d r
termination_by 2 * szOpt o + 1
decreasing_by
  simp only [szOpt]
  omega

def findInList (l : List DomTree) (r : Nat) : Option DomTree :=
  match l with
  | [] => none
  | t :: ts =>
    match findInTree t r with
    | some x => some x
    | none => findInList ts r
termination_by 2 * szList l + 1
decreasing_by
  · simp only [szList]
    omega
  · have := sz_pos t
    simp only [szList]
    omega

end

mutual

/-- Locate the node whose (native) child list contains the node with the
given reference: the `Node::parentNode` relation.  A content document is
not a native child of its owner, but parents inside it are found. -/
def rawParentInTree (t : DomTree) (r : Nat) : Option DomTree :=
  if t.children.any (fun ch => ch.ref = r) then some t
  else
    match rawParentInOpt t.contentDoc r with
    | some p => some p
    | none => rawParentInList t.children r
termination_by 2 * t.sz
decreasing_by
  · have := szOpt_contentDoc_lt t
    omega
  · have := szList_children_lt t
    omega

def rawParentInOpt (o : Option DomTree) (r : Nat) : Option DomTree :=
  match o with
  | none => none
  | some d => rawParentInTree d r
termination_by 2 * szOpt o + 1
decreasing_by
  simp only [szOpt]
  omega

def rawParentInList (l : List DomTree) (r : Nat) : Option DomTree :=
  match l with
  | [] => none
  | t :: ts =>
    match rawParentInTree t r with
    | some p => some p
    | none => rawParentInList ts r
termination_by 2 * szList l + 1
decreasing_by
  · simp only [szList]
    omega
  · have := sz_pos t
    simp only [szList]
    omega

end

def isOwnerOf (t : DomTree) (docRef : Nat) : Bool :=
  t.frameOwner &&
    (match t.contentDoc with
     | some d => d.ref = docRef
     | none => false)

mutual

/-- Locate the boundary element owning the content document with the given
reference: `Document::ownerElement`. -/
def ownerInTree (t : DomTree) (docRef : Nat) : Option Nat :=
  if isOwnerOf t docRef then some t.ref
  else
    match ownerInOpt t.contentDoc docRef with
    | some p => some p
    | none => ownerInList t.children docRef
termination_by 2 * t.sz
decreasing_by
  · have := szOpt_contentDoc_lt t
    omega
  · have := szList_children_lt t
    omega

def ownerInOpt (o : Option DomTree) (docRef : Nat) : Option Nat :=
  match o with
  | none => none
  | some d => ownerInTree d docRef
termination_by 2 * szOpt o + 1
decreasing_by
  simp only [szOpt]
  omega

def ownerInList (l : List DomTree) (docRef : Nat) : Option Nat :=
  match l with
  | [] => none
  | t :: ts =>
    match ownerInTree t docRef with
    | some p => some p
    | none => ownerInList ts docRef
termination_by 2 * szList l + 1
decreasing_by
  · simp only [szList]
    omega
  · have := sz_pos t
    simp only [szList]
    omega

end

/-- `InspectorDOMAgent::innerParentNode`: the native parent, except that a
document's "parent" in the traversal view is its owning boundary element
(none for a root document). -/
def innerParentNodeRef (dom : List DomTree) (r : Nat) : Option Nat :=
  match rawParentInList dom r with
  | none => none
  | some p => if p.kind = NodeKind.document then ownerInList dom p.ref else some p.ref

/-- `InspectorDOMAgent::nodeForId`: id 0 resolves to null immediately,
without consulting the global index. -/
def nodeForId (c : Core) (id : Nat) : Option Nat :=
  if id = 0 then none
  else aget c.idToNode id

/-- `InspectorDOMAgent::inspectedNode`: entry of the recently-inspected
list, or 0 when the index is out of range. -/
def inspectedNode (c : Core) (num : Nat) : Nat :=
  if h : num < c.inspectedNodes.length then c.inspectedNodes.get ⟨num, h⟩ else 0

/-- `InspectorDOMAgent::addInspectedNode`: prepend and drop entries past
capacity 5. -/
def addInspectedNode (c : Core) (id : Nat) : Core :=
  { c with inspectedNodes := (id :: c.inspectedNodes).take 5 }

/-- `InspectorDOMAgent::discardBindings` (note: `m_idToNodesMap` is not
cleared by the C++, and neither is the id counter). -/
def discardBindings (c : Core) : Core :=
  { c with liveMap := [], idToNode := [], danglingMaps := [],
           childrenRequested := [], inspectedNodes := [] }

/-- `InspectorDOMAgent::pushChildNodesToFrontend`: no-op on unknown ids,
non-container nodes and already-disclosed ids; otherwise build the child
array into the map owning the id, mark the id disclosed and send it. -/
def pushChildNodesToFrontend (dom : List DomTree) (c : Core) (nodeId : Nat) : Core :=
  match nodeForId c nodeId with
  | none => c
  | some ref =>
    match findInList dom ref with
    | none => c
    | some node =>
      if !containerKind node.kind then c
      else if nodeId ∈ c.childrenRequested then c
      else
        let mR := (aget c.idToNodesMap nodeId).getD 0
        let r := buildArrayForContainerChildren c node 1 mR
        let c1 := { r.2 with childrenRequested := r.2.childrenRequested ++ [nodeId] }
        emit c1 (.setChildNodes nodeId r.1)

/-- `InspectorDOMAgent::pushDocumentToFrontend`: false when there is no
main document; otherwise describe it at depth 2 into the live map unless
it is already bound, and report success. -/
def pushDocumentToFrontend (dom : List DomTree) (c : Core) : Bool × Core :=
  match c.documents.head? with
  | none => (false, c)
  | some docRef =>
    if (aget c.liveMap docRef).isSome then (true, c)
    else
      match findInList dom docRef with
      | some doc =>
        let r := buildObjectForNode c doc 2 0
        (true, emit r.2 (.setDocument (some r.1)))
      | none => (true, c)

/-- The ascent loop of `pushNodePathToFrontend`: climb `innerParentNode`
ancestors, collecting them, until one is bound in the live map (second
component `none`) or there is no parent (second component: the detached
subtree root).  `fuel` bounds the climb; any fuel at least the forest size
is enough, since the chain moves strictly rootward. -/
def pathLoop (dom : List DomTree) (c : Core) :
    Nat → Nat → List Nat → List Nat × Option Nat
  | 0, nodeRef, path => (path, some nodeRef)
  | fuel + 1, nodeRef, path =>
    match innerParentNodeRef dom nodeRef with
    | none => (path, some nodeRef)
    | some parent =>
      let path2 := path ++ [parent]
      if mapGet c 0 parent ≠ 0 then (path2, none)
      else pathLoop dom c fuel parent path2

/-- The descent of `pushNodePathToFrontend`: disclose each collected
ancestor, top-down (the collected path reversed). -/
def descendPath (dom : List DomTree) (c : Core) (mR : Nat) : List Nat → Core
  | [] => c
  | p :: rest =>
    descendPath dom (pushChildNodesToFrontend dom c (mapGet c mR p)) mR rest

/-- `InspectorDOMAgent::pushNodePathToFrontend`: ensure the document is
pushed; return the live id when known; otherwise climb ancestors — in the
detached case allocate a fresh dangling map and send the detached root, in
the live case use the live map — then disclose the ancestor chain top-down
and return the target's id from the chosen map. -/
def pushNodePathToFrontend (dom : List DomTree) (c : Core) (nodeRef : Nat) :
    Nat × Core :=
  let pr := pushDocumentToFrontend dom c
  if !pr.1 then (0, pr.2)
  else
    let c := pr.2
    let result := mapGet c 0 nodeRef
    if result ≠ 0 then (result, c)
    else
      let lp := pathLoop dom c (szList dom + 1) nodeRef []
      match lp.2 with
      | some topRef =>
        let c := { c with danglingMaps := c.danglingMaps ++ [[]] }
        let mR := c.danglingMaps.length
        let c :=
          match findInList dom topRef with
          | some topNode =>
            let r := buildObjectForNode c topNode 0 mR
            emit r.2 (.setDetachedRoot r.1)
          | none => c
        let c := descendPath dom c mR lp.1.reverse
        (mapGet c mR nodeRef, c)
      | none =>
        let c := descendPath dom c 0 lp.1.reverse
        (mapGet c 0 nodeRef, c)

/-- The node preceding position `i` in the parent's native child list after
skipping whitespace: `InspectorDOMAgent::innerPreviousSibling` applied to
the child at position `i`. -/
def innerPreviousSiblingOf (parent : DomTree) (i : Nat) : Option DomTree :=
  ((parent.children.take i).filter (fun t => !isWs t)).getLast?

/-- `InspectorDOMAgent::didInsertDOMNode`, for the significant node at
position `i` of its parent's (post-insertion) child list: defensively
unbind the possibly-reattached subtree; report nothing when the parent has
no live id; send a coarse count update when the parent's children are
undisclosed, else a precise child-inserted record with the preceding
visible sibling's id (0 if none) and the node's fresh description. -/
def didInsertDOMNode (c : Core) (parent : DomTree) (i : Nat) : Core :=
  match parent.children[i]? with
  | none => c
  | some node =>
    if isWs node then c
    else
      let c1 := unbind c node 0
      let parentId := mapGet c1 0 parent.ref
      if parentId = 0 then c1
      else if parentId ∈ c1.childrenRequested then
        let prevId :=
          match innerPreviousSiblingOf parent i with
          | some p => mapGet c1 0 p.ref
          | none => 0
        let r := buildObjectForNode c1 node 0 0
        emit r.2 (.childNodeInserted parentId prevId r.1)
      else
        let q := innerChildNodeCount c1 parent
        emit q.2 (.childNodeCountUpdated parentId q.1)

/-- `InspectorDOMAgent::didRemoveDOMNode`, for the significant node at
position `i` of its parent's child list (the function runs while the node
is still attached, so the visible counts it reads are pre-removal): report
nothing when the parent has no live id; with undisclosed children send
count 0 exactly when the pre-removal visible count is 1; with disclosed
children send a precise child-removed record; finally unbind the node. -/
def didRemoveDOMNode (c : Core) (parent : DomTree) (i : Nat) : Core :=
  match parent.children[i]? with
  | none => c
  | some node =>
    if isWs node then c
    else
      let parentId := mapGet c 0 parent.ref
      if parentId = 0 then c
      else
        let c1 :=
          if parentId ∈ c.childrenRequested then
            emit c (.childNodeRemoved parentId (mapGet c 0 node.ref))
          else
            let q := innerChildNodeCount c parent
            if q.1 = 1 then emit q.2 (.childNodeCountUpdated parentId 0) else q.2
        unbind c1 node 0

/-- Index of the node with the given reference in a child list. -/
def idxOfRef (l : List DomTree) (r : Nat) : Option Nat :=
  l.findIdx? (fun t => t.ref = r)

/-- Raw `Node::previousSibling`. -/
def rawPrevSiblingRef (dom : List DomTree) (r : Nat) : Option Nat :=
  match rawParentInList dom r with
  | none => none
  | some p =>
    match idxOfRef p.children r with
    | some (i + 1) => (p.children[i]?).map DomTree.ref
    | _ => none

/-- Raw `Node::nextSibling`. -/
def rawNextSiblingRef (dom : List DomTree) (r : Nat) : Option Nat :=
  match rawParentInList dom r with
  | none => none
  | some p =>
    match idxOfRef p.children r with
    | some i => (p.children[i + 1]?).map DomTree.ref
    | none => none

/-- Raw `Node::firstChild`. -/
def firstChildRef (dom : List DomTree) (r : Nat) : Option Nat :=
  match findInList dom r with
  | some t => t.children.head?.map DomTree.ref
  | none => none

/-- `InspectorDOMAgent::setOuterHTML`.  The markup-replacement primitive
`HTMLElement::setOuterHTML` is an external collaborator; its outcome is an
input here: `refused` models the primitive raising an exception (the tree
is then unchanged by contract, so callers pass `domAfter = domBefore`),
and `domAfter` is the forest after a successful replacement.  The
pre-mutation sibling/parent captures use `domBefore`; the post-mutation
reads use `domAfter`.  (When the node has neither previous sibling nor
parent the C++ dereferences a null parent; that unreachable branch is
modelled as no replacement node.) -/
def setOuterHTML (domBefore domAfter : List DomTree) (c : Core)
    (callId nodeId : Nat) (refused : Bool) : Core :=
  match nodeForId c nodeId with
  | none => emit c (.didSetOuterHTML callId 0)
  | some ref =>
    match findInList domBefore ref with
    | none => emit c (.didSetOuterHTML callId 0)
    | some node =>
      if !node.htmlEl then emit c (.didSetOuterHTML callId 0)
      else
        let childrenRequested := nodeId ∈ c.childrenRequested
        let prevSib := rawPrevSiblingRef domBefore ref
        let parentR := rawParentInList domBefore ref
        let c1 := if refused then emit c (.didSetOuterHTML callId 0) else c
        let newNode : Option Nat :=
          match prevSib with
          | some p => rawNextSiblingRef domAfter p
          | none =>
            match parentR with
            | some par => firstChildRef domAfter par.ref
            | none => none
        let r :=
          match newNode with
          | some nn => pushNodePathToFrontend domAfter c1 nn
          | none => (0, c1)
        let c2 := if childrenRequested then pushChildNodesToFrontend domAfter r.2 r.1 else r.2
        emit c2 (.didSetOuterHTML callId r.1)

/-- The full agent state: the binding core plus the search session
(`m_pendingMatchJobs`, modelled at queue granularity, the match-jobs
timer, and the de-dup set `m_searchResults` of node references). -/
structure Agent where
  core : Core
  pendingMatchJobs : List Nat
  matchJobsTimerActive : Bool
  searchResults : List Nat

/-- Result of the loop in `reportNodesAsSearchResults`: the evolved core,
the grown de-dup set, the ids pushed into the outgoing record, and — for
specification purposes — the nodes those ids were pushed for. -/
structure ReportOut where
  core : Core
  results : List Nat
  ids : List Nat
  added : List Nat

/-- The collector loop of `reportNodesAsSearchResults`: skip nodes already
in the de-dup set; add each new node to the set and push its id. -/
def reportLoop (dom : List DomTree) (c : Core) (results : List Nat) :
    List Nat → ReportOut
  | [] => ⟨c, results, [], []⟩
  | n :: rest =>
    if n ∈ results then reportLoop dom c results rest
    else
      let p := pushNodePathToFrontend dom c n
      let q := reportLoop dom p.2 (results ++ [n]) rest
      ⟨q.core, q.results, p.1 :: q.ids, n :: q.added⟩

/-- `InspectorDOMAgent::reportNodesAsSearchResults`: run the collector
loop, then send one `addNodesToSearchResult` record with the collected
ids.  The second component is the list of nodes this call reported. -/
def reportNodesAsSearchResults (dom : List DomTree) (a : Agent)
    (collector : List Nat) : Agent × List Nat :=
  let r := reportLoop dom a.core a.searchResults collector
  ({ a with core := emit r.core (.addNodesToSearchResult r.ids),
            searchResults := r.results },
   r.added)

/-- `InspectorDOMAgent::searchCanceled`: stop the timer if active, delete
and clear the pending jobs, clear the de-dup set. -/
def searchCanceled (a : Agent) : Agent :=
  { a with matchJobsTimerActive := false, pendingMatchJobs := [],
           searchResults := [] }

/-- The map-touching operations of one session, used to state trace
properties of the id assignment: a `bind` request (by node reference and
map reference), an `unbind` request, and a full `discardBindings`. -/
inductive SessionOp where
  | bindOp (r mR : Nat)
  | unbindOp (t : DomTree) (mR : Nat)
  | discardOp

/-- Run a trace of session operations from a state, logging for every
`bind` the `((map, node), id)` triple it returned. -/
def runOpsLog (c : Core) : List SessionOp → Core × List ((Nat × Nat) × Nat)
  | [] => (c, [])
  | op :: ops =>
    match op with
    | .bindOp r mR =>
      let p := bind c r mR
      let q := runOpsLog p.2 ops
      (q.1, ((mR, r), p.1) :: q.2)
    | .unbindOp t mR => runOpsLog (unbind c t mR) ops
    | .discardOp => runOpsLog (discardBindings c) ops


def dW : DomTree := .node 11 .document false false [] [] [] [] none []
def fW : DomTree := .node 10 .element true true [] [] [] [] (some dW) []
def c8cex : Core := { initCore with documents := [11], cssDocs := [11] }

def wsW : DomTree := .node 5 .text false false [] [] [' '] [] none []
def spanW : DomTree := .node 6 .element true false [] [] [] [] none []
def divW : DomTree := .node 4 .element true false [] [] [] [] none []
def bodyW : DomTree := .node 3 .element true false [] [] [] [] none [divW, wsW, spanW]

def c4w : Core :=
  { initCore with
    lastNodeId := 5
    liveMap := [(1, 1), (2, 2), (3, 3), (4, 4)]
    idToNode := [(1, 1), (2, 2), (3, 3), (4, 4)]
    idToNodesMap := [(1, 0), (2, 0), (3, 0), (4, 0)]
    childrenRequested := [3] }

def c5w : Core :=
  { initCore with
    lastNodeId := 6
    liveMap := [(1, 1), (2, 2), (3, 3), (4, 4), (6, 5)]
    idToNode := [(1, 1), (2, 2), (3, 3), (4, 4), (5, 6)]
    idToNodesMap := [(1, 0), (2, 0), (3, 0), (4, 0), (5, 0)]
    childrenRequested := [3] }

def el9 : DomTree := .node 2 .element true false [] [] [] [] none []
def doc9 : DomTree := .node 1 .document false false [] [] [] [] none [el9]
def dom9 : List DomTree := [doc9]

def c9w : Core :=
  { initCore with
    lastNodeId := 3
    liveMap := [(1, 1), (2, 2)]
    idToNode := [(1, 1), (2, 2)]
    idToNodesMap := [(1, 0), (2, 0)]
    documents := [1] }

def a7 : Agent :=
  { core := c9w, pendingMatchJobs := [9], matchJobsTimerActive := true,
    searchResults := [2] }

/-- Invariant tying a state to the log of `bind` results so far: logged
ids are nonzero and below the counter; every bound pair is logged with
its current id; distinct pairs never share a logged id; the counter is
positive. -/
def BindInv (c : Core) (log : List ((Nat × Nat) × Nat)) : Prop :=
  (∀ e ∈ log, e.2 ≠ 0 ∧ e.2 < c.lastNodeId) ∧
  (∀ mR r, mapGet c mR r ≠ 0 → ((mR, r), mapGet c mR r) ∈ log) ∧
  (∀ e1 ∈ log, ∀ e2 ∈ log, e1.1 ≠ e2.1 → e1.2 ≠ e2.2) ∧
  0 < c.lastNodeId

mutual

/-- DOM well-formedness of content documents: a document node admits no
text-node children (`Document::childTypeAllowed` in WebKit), stated for
every content document in the tree. -/
def docOKTree : DomTree → Bool
  | .node r k hh f nm ln v a cd ch =>
    (match cd with
     | some d => d.children.all (fun x => !(x.kind = NodeKind.text)) && docOKTree d
     | none => true) && docOKList ch
termination_by t => 2 * t.sz
decreasing_by
  · simp only [DomTree.sz, szOpt]
    omega
  · simp only [DomTree.sz]
    omega

def docOKList : List DomTree → Bool
  | [] => true
  | t :: ts => docOKTree t && docOKList ts
termination_by l => 2 * szList l + 1
decreasing_by
  · simp only [szList]
    omega
  · have := sz_pos t
    simp only [szList]
    omega

end

mutual

/-- All node references of a tree (content documents included). -/
def treeRefs : DomTree → List Nat
  | .node r k hh f nm ln v a cd ch => r :: (treeRefsOpt cd ++ treeRefsList ch)
termination_by t => 2 * t.sz
decreasing_by
  · simp only [DomTree.sz]
    omega
  · simp only [DomTree.sz]
    omega

def treeRefsOpt : Option DomTree → List Nat
  | none => []
  | some d => treeRefs d
termination_by o => 2 * szOpt o + 1
decreasing_by
  simp only [szOpt]
  omega

def treeRefsList : List DomTree → List Nat
  | [] => []
  | t :: ts => treeRefs t ++ treeRefsList ts
termination_by l => 2 * szList l + 1
decreasing_by
  · simp only [szList]
    omega
  · have := sz_pos t
    simp only [szList]
    omega

end

mutual

/-- References of the whitespace-only text nodes of a tree. -/
def wsRefs : DomTree → List Nat
  | .node r k hh f nm ln v a cd ch =>
    (if isWs (.node r k hh f nm ln v a cd ch) then [r] else []) ++
      (wsRefsOpt cd ++ wsRefsList ch)
termination_by t => 2 * t.sz
decreasing_by
  · simp only [DomTree.sz]
    omega
  · simp only [DomTree.sz]
    omega

def wsRefsOpt : Option DomTree → List Nat
  | none => []
  | some d => wsRefs d
termination_by o => 2 * szOpt o + 1
decreasing_by
  simp only [szOpt]
  omega

def wsRefsList : List DomTree → List Nat
  | [] => []
  | t :: ts => wsRefs t ++ wsRefsList ts
termination_by l => 2 * szList l + 1
decreasing_by
  · simp only [szList]
    omega
  · have := sz_pos t
    simp only [szList]
    omega

end

mutual

/-- References of the non-whitespace nodes of a tree. -/
def nonWsRefs : DomTree → List Nat
  | .node r k hh f nm ln v a cd ch =>
    (if isWs (.node r k hh f nm ln v a cd ch) then [] else [r]) ++
      (nonWsRefsOpt cd ++ nonWsRefsList ch)
termination_by t => 2 * t.sz
decreasing_by
  · simp only [DomTree.sz]
    omega
  · simp only [DomTree.sz]
    omega

def nonWsRefsOpt : Option DomTree → List Nat
  | none => []
  | some d => nonWsRefs d
termination_by o => 2 * szOpt o + 1
decreasing_by
  simp only [szOpt]
  omega

def nonWsRefsList : List DomTree → List Nat
  | [] => []
  | t :: ts => nonWsRefs t ++ nonWsRefsList ts
termination_by l => 2 * szList l + 1
decreasing_by
  · simp only [szList]
    omega
  · have := sz_pos t
    simp only [szList]
    omega

end

mutual

def NodeObj.osz : NodeObj → Nat
  | .mk _ _ _ _ _ _ ch _ => 1 + oszOpt ch

def oszOpt : Option (List NodeObj) → Nat
  | none => 0
  | some l => oszList l

def oszList : List NodeObj → Nat
  | [] => 0
  | o :: os => o.osz + oszList os

end

/-- A serialized object describing a whitespace-only text node. -/
def wsObj (o : NodeObj) : Bool :=
  o.objType = 3 && (stripWhiteSpace o.objValue).isEmpty

theorem osz_pos (o : NodeObj) : 1 ≤ o.osz := by
  cases o with
  | mk a b c d e f g h =>
    simp only [NodeObj.osz]
    omega

theorem oszList_children_lt {o : NodeObj} {l : List NodeObj}
    (h : o.objChildren = some l) : oszList l < o.osz := by
  cases o with
  | mk a b c d e f g hh =>
    simp only [NodeObj.objChildren] at h
    subst h
    simp only [NodeObj.osz, oszOpt]
    omega

mutual

/-- No whitespace-only text object appears in any (nested) children array. -/
def cleanObj (o : NodeObj) : Bool :=
  match h : o.objChildren with
  | none => true
  | some l => cleanList l
termination_by 2 * o.osz
decreasing_by
  have := oszList_children_lt h
  omega

def cleanList (l : List NodeObj) : Bool :=
  match l with
  | [] => true
  | o :: os => !wsObj o && cleanObj o && cleanList os
termination_by 2 * oszList l + 1
decreasing_by
  · simp only [oszList]
    omega
  · have := osz_pos o
    simp only [oszList]
    omega

end

/-- Injectivity of the nonzero identifiers a map assigns to a set of
references (a consequence of global id uniqueness, claim C2). -/
def injIds (c : Core) (mR : Nat) (rs : List Nat) : Prop :=
  ∀ r1 ∈ rs, ∀ r2 ∈ rs, mapGet c mR r1 ≠ 0 →
    mapGet c mR r1 = mapGet c mR r2 → r1 = r2

mutual

/-- The (reference, id) pairs `unbind` removes, computed against the state
at the head call: a bound node is removed; if additionally disclosed, the
removal recurses through the visible children. -/
def reach (c : Core) (mR : Nat) (n : DomTree) : List (Nat × Nat) :=
  if mapGet c mR n.ref = 0 then []
  else if mapGet c mR n.ref ∈ c.childrenRequested then
    (n.ref, mapGet c mR n.ref) :: reachList c mR (visChildren n)
  else [(n.ref, mapGet c mR n.ref)]
termination_by 2 * n.sz
decreasing_by
  have := szList_visChildren_lt n
  omega

def reachList (c : Core) (mR : Nat) (ts : List DomTree) : List (Nat × Nat) :=
  match ts with
  | [] => []
  | t :: rest => reach c mR t ++ reachList c mR rest
termination_by 2 * szList ts + 1
decreasing_by
  · simp only [szList]
    omega
  · have := sz_pos t
    simp only [szList]
    omega

end

mutual

/-- All descendants of a node through the visible-child traversal view,
the node included. -/
def visDesc (n : DomTree) : List DomTree :=
  n :: visDescList (visChildren n)
termination_by 2 * n.sz
decreasing_by
  have := szList_visChildren_lt n
  omega

def visDescList (ts : List DomTree) : List DomTree :=
  match ts with
  | [] => []
  | t :: rest => visDesc t ++ visDescList rest
termination_by 2 * szList ts + 1
decreasing_by
  · simp only [szList]
    omega
  · have := sz_pos t
    simp only [szList]
    omega

end

mutual

/-- The set of nodes the specification says `unbind` removes: the node and
every descendant reachable through the visible-child traversal view, except
that descendants of a bound but undisclosed node are left out. -/
def specReach (c : Core) (mR : Nat) (n : DomTree) : List DomTree :=
  if mapGet c mR n.ref ≠ 0 ∧ mapGet c mR n.ref ∉ c.childrenRequested then [n]
  else n :: specReachList c mR (visChildren n)
termination_by 2 * n.sz
decreasing_by
  have := szList_visChildren_lt n
  omega

def specReachList (c : Core) (mR : Nat) (ts : List DomTree) : List DomTree :=
  match ts with
  | [] => []
  | t :: rest => specReach c mR t ++ specReachList c mR rest
termination_by 2 * szList ts + 1
decreasing_by
  · simp only [szList]
    omega
  · have := sz_pos t
    simp only [szList]
    omega

end

def c3w : Core :=
  { initCore with
      liveMap := [(3, 10), (4, 11), (6, 12)]
      idToNode := [(10, 3), (11, 4), (12, 6)]
      childrenRequested := [10] }

theorem aget_aset_self {β : Type} (l : List (Nat × β)) (k : Nat) (v : β) :
    aget (aset l k v) k = some v := by
  simp [aset, aget]

theorem aget_filter_keep {β : Type} (l : List (Nat × β)) (p : Nat × β → Bool)
    (k : Nat) (hk : ∀ v, p (k, v) = true) :
    aget (l.filter p) k = aget l k := by
  induction l with
  | nil => rfl
  | cons e rest ih =>
    by_cases he : e.1 = k
    · have : p e = true := by
        obtain ⟨e1, e2⟩ := e
        simp only at he
        subst he
        exact hk e2
      simp only [List.filter_cons, this, if_true]
      rw [aget, aget, if_pos he, if_pos he]
    · by_cases hp : p e
      · simp only [List.filter_cons, hp, if_true]
        rw [aget, aget, if_neg he, if_neg he]
        exact ih
      · simp only [List.filter_cons, hp]
        simp only [Bool.false_eq_true, if_false]
        rw [aget, if_neg he]
        exact ih

theorem aget_aset_ne {β : Type} (l : List (Nat × β)) (k k' : Nat) (v : β)
    (h : k' ≠ k) : aget (aset l k v) k' = aget l k' := by
  rw [aset, aget, if_neg (fun he => h he.symm)]
  exact aget_filter_keep l _ k' (by intro v2; simp; omega)

theorem aget_filter_drop {β : Type} (l : List (Nat × β)) (p : Nat × β → Bool)
    (k : Nat) (hk : ∀ v, p (k, v) = false) :
    aget (l.filter p) k = none := by
  induction l with
  | nil => rfl
  | cons e rest ih =>
    by_cases hp : p e
    · have he : e.1 ≠ k := by
        intro h
        obtain ⟨e1, e2⟩ := e
        simp only at h
        subst h
        rw [hk e2] at hp
        exact absurd hp (by simp)
      simp only [List.filter_cons, hp, if_true]
      rw [aget, if_neg he]
      exact ih
    · simp only [List.filter_cons, hp, Bool.false_eq_true, if_false]
      exact ih

theorem aget_aremove_self {β : Type} (l : List (Nat × β)) (k : Nat) :
    aget (aremove l k) k = none :=
  aget_filter_drop l _ k (by intro v; simp)

theorem aget_aremove_ne {β : Type} (l : List (Nat × β)) (k k' : Nat) (h : k' ≠ k) :
    aget (aremove l k) k' = aget l k' :=
  aget_filter_keep l _ k' (by intro v; simp; omega)

theorem getD_set_self {α : Type} (l : List α) (i : Nat) (x d : α)
    (h : i < l.length) : (l.set i x).getD i d = x := by
  rw [List.getD_eq_getElem?_getD, List.getElem?_set_self h]
  rfl

theorem getD_set_ne {α : Type} (l : List α) (i j : Nat) (x d : α)
    (h : i ≠ j) : (l.set i x).getD j d = l.getD j d := by
  rw [List.getD_eq_getElem?_getD, List.getElem?_set_ne h, List.getD_eq_getElem?_getD]

theorem getTbl_setTbl_self (c : Core) (mR : Nat) (t : List (Nat × Nat))
    (h : validMapRef c mR) : getTbl (setTbl c mR t) mR = t := by
  by_cases h0 : mR = 0
  · simp [getTbl, setTbl, h0]
  · rcases h with h | h
    · exact absurd h h0
    · simp only [getTbl, setTbl, h0, if_false]
      exact getD_set_self _ _ _ _ h

theorem getTbl_setTbl_ne (c : Core) (mR mR' : Nat) (t : List (Nat × Nat))
    (h : mR' ≠ mR) : getTbl (setTbl c mR t) mR' = getTbl c mR' := by
  by_cases h0 : mR = 0
  · subst h0
    simp [getTbl, setTbl, h]
  · by_cases h1 : mR' = 0
    · simp [getTbl, setTbl, h0, h1]
    · simp only [getTbl, setTbl, h0, h1, if_false]
      exact getD_set_ne _ _ _ _ _ (by omega)

theorem getTbl_update_idMaps (c : Core) (x y : List (Nat × Nat)) (mR : Nat) :
    getTbl { c with idToNode := x, idToNodesMap := y } mR = getTbl c mR := rfl

theorem mapGet_bind_self (c : Core) (r mR : Nat) (hc : 0 < c.lastNodeId)
    (hv : validMapRef c mR) :
    mapGet (bind c r mR).2 mR r = (bind c r mR).1 ∧ (bind c r mR).1 ≠ 0 := by
  unfold bind
  by_cases h : mapGet c mR r ≠ 0
  · rw [if_pos h]
    exact ⟨rfl, h⟩
  · rw [if_neg h]
    push_neg at h
    refine ⟨?_, ?_⟩
    · show mapGet _ mR r = c.lastNodeId
      unfold mapGet
      have hv2 : validMapRef { c with lastNodeId := c.lastNodeId + 1 } mR := hv
      rw [getTbl_update_idMaps, getTbl_setTbl_self _ _ _ hv2, aget_aset_self]
      rfl
    · show c.lastNodeId ≠ 0
      omega

theorem domtree_strong_induction (P : DomTree → Prop)
    (step : ∀ n, (∀ t, t.sz < n.sz → P t) → P n) : ∀ n, P n := by
  have H : ∀ k n, n.sz ≤ k → P n := by
    intro k
    induction k with
    | zero =>
      intro n hn
      have := sz_pos n
      omega
    | succ k ih =>
      intro n hn
      exact step n (fun t ht => ih t (by omega))
  intro n
  exact H n.sz n le_rfl

end InspectorDOM

namespace InspectorDOM

/-- Generic closure principle for `unbind`: any reflexive transitive
relation preserved by each atomic state modification of `unbind` relates
every state to the result of `unbind` (and of `unbindList`). -/
theorem unbind_rel {Q : Core → Core → Prop}
    (htrans : ∀ {a b c2 : Core}, Q a b → Q b c2 → Q a c2)
    (hrefl : ∀ c, Q c c)
    (hpre : ∀ c n, Q c (unbindPrelude c n))
    (hrem : ∀ c r i mR, Q c (unbindRemove c r i mR))
    (hcd : ∀ c i, Q c (clearDisclosure c i))
    (htouch : ∀ c n, Q c (touchScope c n)) :
    (∀ n c mR, Q c (unbind c n mR)) ∧ (∀ ts c mR, Q c (unbindList c ts mR)) := by
  have main : ∀ n c mR, Q c (unbind c n mR) := by
    intro n
    induction n using domtree_strong_induction with
    | step n IH =>
      have hlist : ∀ ts, (∀ t ∈ ts, t.sz < n.sz) → ∀ c mR, Q c (unbindList c ts mR) := by
        intro ts
        induction ts with
        | nil =>
          intro _ c mR
          rw [unbindList]
          exact hrefl c
        | cons t rest ihl =>
          intro hts c mR
          rw [unbindList]
          exact htrans (IH t (hts t (by simp)) c mR)
            (ihl (fun x hx => hts x (by simp [hx])) _ mR)
      intro c mR
      rw [unbind]
      by_cases h0 : mapGet (unbindPrelude c n) mR n.ref = 0
      · rw [if_pos h0]
        exact hpre c n
      · rw [if_neg h0]
        by_cases h1 : mapGet (unbindPrelude c n) mR n.ref ∈
            (unbindRemove (unbindPrelude c n) n.ref (mapGet (unbindPrelude c n) mR n.ref) mR).childrenRequested
        · rw [if_pos h1]
          have s0 := hpre c n
          have s1 := hrem (unbindPrelude c n) n.ref (mapGet (unbindPrelude c n) mR n.ref) mR
          have s2 := hcd (unbindRemove (unbindPrelude c n) n.ref
            (mapGet (unbindPrelude c n) mR n.ref) mR) (mapGet (unbindPrelude c n) mR n.ref)
          have s3 := htouch (clearDisclosure (unbindRemove (unbindPrelude c n) n.ref
            (mapGet (unbindPrelude c n) mR n.ref) mR) (mapGet (unbindPrelude c n) mR n.ref)) n
          have s4 := hlist (visChildren n) (fun t ht => sz_mem_visChildren_lt ht)
            (touchScope (clearDisclosure (unbindRemove (unbindPrelude c n) n.ref
              (mapGet (unbindPrelude c n) mR n.ref) mR)
              (mapGet (unbindPrelude c n) mR n.ref)) n) mR
          exact htrans s0 (htrans s1 (htrans s2 (htrans s3 s4)))
        · rw [if_neg h1]
          exact htrans (hpre c n) (hrem _ _ _ _)
  refine ⟨main, ?_⟩
  intro ts
  induction ts with
  | nil =>
    intro c mR
    rw [unbindList]
    exact hrefl c
  | cons t rest ihl =>
    intro c mR
    rw [unbindList]
    exact htrans (main t c mR) (ihl _ mR)

end InspectorDOM

namespace InspectorDOM

theorem setTbl_fields (c : Core) (mR : Nat) (t : List (Nat × Nat)) :
    (setTbl c mR t).lastNodeId = c.lastNodeId ∧
    (setTbl c mR t).idToNode = c.idToNode ∧
    (setTbl c mR t).idToNodesMap = c.idToNodesMap ∧
    (setTbl c mR t).childrenRequested = c.childrenRequested ∧
    (setTbl c mR t).documents = c.documents ∧
    (setTbl c mR t).cssDocs = c.cssDocs ∧
    (setTbl c mR t).inspectedNodes = c.inspectedNodes ∧
    (setTbl c mR t).msgs = c.msgs ∧
    (setTbl c mR t).danglingMaps.length = c.danglingMaps.length := by
  unfold setTbl
  split <;> simp

theorem getTbl_setTbl_invalid (c : Core) (mR : Nat) (t : List (Nat × Nat))
    (h : ¬ validMapRef c mR) : getTbl (setTbl c mR t) mR = getTbl c mR := by
  unfold validMapRef at h
  push_neg at h
  unfold getTbl setTbl
  simp only [if_neg h.1]
  rw [List.set_eq_of_length_le (by omega)]

theorem unbindRemove_fields (c : Core) (r i mR : Nat) :
    (unbindRemove c r i mR).lastNodeId = c.lastNodeId ∧
    (unbindRemove c r i mR).idToNodesMap = c.idToNodesMap ∧
    (unbindRemove c r i mR).childrenRequested = c.childrenRequested ∧
    (unbindRemove c r i mR).documents = c.documents ∧
    (unbindRemove c r i mR).cssDocs = c.cssDocs ∧
    (unbindRemove c r i mR).inspectedNodes = c.inspectedNodes ∧
    (unbindRemove c r i mR).msgs = c.msgs ∧
    (unbindRemove c r i mR).danglingMaps.length = c.danglingMaps.length ∧
    (unbindRemove c r i mR).idToNode = aremove c.idToNode i := by
  unfold unbindRemove
  have h := setTbl_fields { c with idToNode := aremove c.idToNode i } mR
    (aremove (getTbl { c with idToNode := aremove c.idToNode i } mR) r)
  refine ⟨h.1, h.2.2.1, h.2.2.2.1, h.2.2.2.2.1, h.2.2.2.2.2.1, h.2.2.2.2.2.2.1,
    h.2.2.2.2.2.2.2.1, ?_, h.2.1⟩
  exact h.2.2.2.2.2.2.2.2

theorem unbindPrelude_fields (c : Core) (n : DomTree) :
    (unbindPrelude c n).lastNodeId = c.lastNodeId ∧
    (unbindPrelude c n).liveMap = c.liveMap ∧
    (unbindPrelude c n).danglingMaps = c.danglingMaps ∧
    (unbindPrelude c n).idToNode = c.idToNode ∧
    (unbindPrelude c n).idToNodesMap = c.idToNodesMap ∧
    (unbindPrelude c n).childrenRequested = c.childrenRequested ∧
    (unbindPrelude c n).inspectedNodes = c.inspectedNodes ∧
    (unbindPrelude c n).msgs = c.msgs := by
  unfold unbindPrelude
  split
  · split
    · unfold removeCssDoc stopListening
      split <;> simp
    · simp
  · simp

theorem touchScope_fields (c : Core) (n : DomTree) :
    (touchScope c n).lastNodeId = c.lastNodeId ∧
    (touchScope c n).liveMap = c.liveMap ∧
    (touchScope c n).danglingMaps = c.danglingMaps ∧
    (touchScope c n).idToNode = c.idToNode ∧
    (touchScope c n).idToNodesMap = c.idToNodesMap ∧
    (touchScope c n).childrenRequested = c.childrenRequested ∧
    (touchScope c n).cssDocs = c.cssDocs ∧
    (touchScope c n).inspectedNodes = c.inspectedNodes ∧
    (touchScope c n).msgs = c.msgs := by
  unfold touchScope
  split
  · split
    · unfold startListening
      split <;> simp
    · simp
  · simp

theorem getTbl_unbindPrelude (c : Core) (n : DomTree) (mR : Nat) :
    getTbl (unbindPrelude c n) mR = getTbl c mR := by
  have h := unbindPrelude_fields c n
  unfold getTbl
  rw [h.2.1, h.2.2.1]

theorem getTbl_touchScope (c : Core) (n : DomTree) (mR : Nat) :
    getTbl (touchScope c n) mR = getTbl c mR := by
  have h := touchScope_fields c n
  unfold getTbl
  rw [h.2.1, h.2.2.1]

/-- `unbind` never touches the id counter, the emitted records, the
recently-inspected list, the id-to-map table, or the number of maps. -/
theorem unbind_frame :
    (∀ n (c : Core) mR, (unbind c n mR).lastNodeId = c.lastNodeId ∧
      (unbind c n mR).msgs = c.msgs ∧
      (unbind c n mR).inspectedNodes = c.inspectedNodes ∧
      (unbind c n mR).idToNodesMap = c.idToNodesMap ∧
      (unbind c n mR).danglingMaps.length = c.danglingMaps.length) ∧
    (∀ ts (c : Core) mR, (unbindList c ts mR).lastNodeId = c.lastNodeId ∧
      (unbindList c ts mR).msgs = c.msgs ∧
      (unbindList c ts mR).inspectedNodes = c.inspectedNodes ∧
      (unbindList c ts mR).idToNodesMap = c.idToNodesMap ∧
      (unbindList c ts mR).danglingMaps.length = c.danglingMaps.length) := by
  have h := unbind_rel (Q := fun a b => b.lastNodeId = a.lastNodeId ∧ b.msgs = a.msgs ∧
      b.inspectedNodes = a.inspectedNodes ∧ b.idToNodesMap = a.idToNodesMap ∧
      b.danglingMaps.length = a.danglingMaps.length)
    (by
      rintro a b c2 ⟨h1, h2, h3, h4, h5⟩ ⟨g1, g2, g3, g4, g5⟩
      exact ⟨g1.trans h1, g2.trans h2, g3.trans h3, g4.trans h4, g5.trans h5⟩)
    (fun c => ⟨rfl, rfl, rfl, rfl, rfl⟩)
    (by
      intro c n
      have h := unbindPrelude_fields c n
      exact ⟨h.1, h.2.2.2.2.2.2.2, h.2.2.2.2.2.2.1, h.2.2.2.2.1, by rw [h.2.2.1]⟩)
    (by
      intro c r i mR
      have h := unbindRemove_fields c r i mR
      exact ⟨h.1, h.2.2.2.2.2.2.1, h.2.2.2.2.2.1, h.2.1, h.2.2.2.2.2.2.2.1⟩)
    (by
      intro c i
      unfold clearDisclosure
      simp)
    (by
      intro c n
      have h := touchScope_fields c n
      exact ⟨h.1, h.2.2.2.2.2.2.2.2, h.2.2.2.2.2.2.2.1, h.2.2.2.2.1, by rw [h.2.2.1]⟩)
  exact ⟨fun n c mR => h.1 n c mR, fun ts c mR => h.2 ts c mR⟩

end InspectorDOM

namespace InspectorDOM

theorem getTbl_update_idToNode (c : Core) (x : List (Nat × Nat)) (mR : Nat) :
    getTbl { c with idToNode := x } mR = getTbl c mR := rfl

/-- `unbind` only removes entries: a map entry surviving it kept its value,
a disclosure flag surviving it was already set, and a global-index entry
surviving it kept its value. -/
theorem unbind_mono :
    (∀ n (c : Core) mR,
      (∀ mR' r, mapGet (unbind c n mR) mR' r = mapGet c mR' r ∨
        mapGet (unbind c n mR) mR' r = 0) ∧
      (∀ i, i ∈ (unbind c n mR).childrenRequested → i ∈ c.childrenRequested) ∧
      (∀ i, aget (unbind c n mR).idToNode i = aget c.idToNode i ∨
        aget (unbind c n mR).idToNode i = none)) ∧
    (∀ ts (c : Core) mR,
      (∀ mR' r, mapGet (unbindList c ts mR) mR' r = mapGet c mR' r ∨
        mapGet (unbindList c ts mR) mR' r = 0) ∧
      (∀ i, i ∈ (unbindList c ts mR).childrenRequested → i ∈ c.childrenRequested) ∧
      (∀ i, aget (unbindList c ts mR).idToNode i = aget c.idToNode i ∨
        aget (unbindList c ts mR).idToNode i = none)) := by
  have h := unbind_rel (Q := fun a b =>
      (∀ mR' r, mapGet b mR' r = mapGet a mR' r ∨ mapGet b mR' r = 0) ∧
      (∀ i, i ∈ b.childrenRequested → i ∈ a.childrenRequested) ∧
      (∀ i, aget b.idToNode i = aget a.idToNode i ∨ aget b.idToNode i = none))
    (by
      rintro a b c2 ⟨h1, h2, h3⟩ ⟨g1, g2, g3⟩
      refine ⟨?_, fun i hi => h2 i (g2 i hi), ?_⟩
      · intro mR' r
        rcases g1 mR' r with g | g
        · rw [g]
          exact h1 mR' r
        · exact Or.inr g
      · intro i
        rcases g3 i with g | g
        · rw [g]
          exact h3 i
        · exact Or.inr g)
    (fun c => ⟨fun _ _ => Or.inl rfl, fun _ hi => hi, fun _ => Or.inl rfl⟩)
    (by
      intro c n
      have hf := unbindPrelude_fields c n
      refine ⟨fun mR' r => Or.inl ?_, fun i hi => ?_, fun i => Or.inl ?_⟩
      · unfold mapGet
        rw [getTbl_unbindPrelude]
      · rwa [hf.2.2.2.2.2.1] at hi
      · rw [hf.2.2.2.1])
    (by
      intro c r i mR
      have hf := unbindRemove_fields c r i mR
      refine ⟨?_, fun j hj => ?_, fun j => ?_⟩
      · intro mR' r'
        unfold unbindRemove
        by_cases hm : mR' = mR
        · subst hm
          by_cases hv : validMapRef { c with idToNode := aremove c.idToNode i } mR'
          · unfold mapGet
            rw [getTbl_setTbl_self _ _ _ hv]
            by_cases hr : r' = r
            · subst hr
              rw [getTbl_update_idToNode, aget_aremove_self]
              exact Or.inr rfl
            · rw [getTbl_update_idToNode, aget_aremove_ne _ _ _ hr]
              exact Or.inl rfl
          · unfold mapGet
            rw [getTbl_setTbl_invalid _ _ _ hv, getTbl_update_idToNode]
            exact Or.inl rfl
        · unfold mapGet
          rw [getTbl_setTbl_ne _ _ _ _ hm, getTbl_update_idToNode]
          exact Or.inl rfl
      · rwa [hf.2.2.1] at hj
      · rw [hf.2.2.2.2.2.2.2.2]
        by_cases hj : j = i
        · subst hj
          rw [aget_aremove_self]
          exact Or.inr rfl
        · rw [aget_aremove_ne _ _ _ hj]
          exact Or.inl rfl)
    (by
      intro c i
      unfold clearDisclosure
      refine ⟨fun mR' r => Or.inl rfl, fun j hj => ?_, fun j => Or.inl rfl⟩
      simp only [List.mem_filter] at hj
      exact hj.1)
    (by
      intro c n
      have hf := touchScope_fields c n
      refine ⟨fun mR' r => Or.inl ?_, fun i hi => ?_, fun i => Or.inl ?_⟩
      · unfold mapGet
        rw [getTbl_touchScope]
      · rwa [hf.2.2.2.2.2.1] at hi
      · rw [hf.2.2.2.1])
  exact h

end InspectorDOM

namespace InspectorDOM

end InspectorDOM

namespace InspectorDOM

theorem filter_ne_of_not_mem {l : List Nat} {r : Nat} (h : r ∉ l) :
    l.filter (fun x => x ≠ r) = l := by
  apply List.filter_eq_self.mpr
  intro x hx
  simp only [ne_eq, decide_eq_true_eq]
  intro he
  subst he
  exact h hx

/-- C8 (amended): unbinding a node with no id in the map returns before
touching any binding state; for a non-boundary node it is a pure no-op,
while for a boundary node the prologue still stops listening on its
nested scope and drops the scope's CSS bookkeeping. -/
theorem claim_C8_unbind_unbound (c : Core) (n : DomTree) (mR : Nat)
    (h : mapGet c mR n.ref = 0) :
    ((unbind c n mR).lastNodeId = c.lastNodeId ∧
     (unbind c n mR).liveMap = c.liveMap ∧
     (unbind c n mR).danglingMaps = c.danglingMaps ∧
     (unbind c n mR).idToNode = c.idToNode ∧
     (unbind c n mR).idToNodesMap = c.idToNodesMap ∧
     (unbind c n mR).childrenRequested = c.childrenRequested ∧
     (unbind c n mR).inspectedNodes = c.inspectedNodes ∧
     (unbind c n mR).msgs = c.msgs) ∧
    (n.frameOwner = false → unbind c n mR = c) ∧
    (∀ d, n.frameOwner = true → n.contentDoc = some d →
      (unbind c n mR).documents = c.documents.filter (fun x => x ≠ d.ref) ∧
      (unbind c n mR).cssDocs = c.cssDocs.filter (fun x => x ≠ d.ref)) ∧
    (n.frameOwner = true → n.contentDoc = none → unbind c n mR = c) := by
  have h0 : mapGet (unbindPrelude c n) mR n.ref = 0 := by
    unfold mapGet
    rw [getTbl_unbindPrelude]
    exact h
  have hu : unbind c n mR = unbindPrelude c n := by
    rw [unbind, if_pos h0]
  rw [hu]
  have hf := unbindPrelude_fields c n
  refine ⟨⟨hf.1, hf.2.1, hf.2.2.1, hf.2.2.2.1, hf.2.2.2.2.1, hf.2.2.2.2.2.1,
    hf.2.2.2.2.2.2.1, hf.2.2.2.2.2.2.2⟩, ?_, ?_, ?_⟩
  · intro hfo
    unfold unbindPrelude
    rw [hfo]
    simp
  · intro d hfo hcd
    unfold unbindPrelude
    rw [hfo, if_pos rfl, hcd]
    constructor
    · show (removeCssDoc (stopListening c d.ref) d.ref).documents = _
      unfold removeCssDoc stopListening
      by_cases hm : d.ref ∈ c.documents
      · rw [if_pos hm]
      · rw [if_neg hm]
        simp only
        rw [filter_ne_of_not_mem hm]
    · show (removeCssDoc (stopListening c d.ref) d.ref).cssDocs = _
      unfold removeCssDoc stopListening
      by_cases hm : d.ref ∈ c.documents
      · rw [if_pos hm]
      · rw [if_neg hm]
  · intro hfo hcd
    unfold unbindPrelude
    rw [hfo, if_pos rfl, hcd]


/-- C8 counterexample: a boundary node with no id in the live map, whose
nested scope is being listened to.  `unbind` changes the set of listened
scopes (and the CSS bookkeeping), so it does not leave all session state
unchanged as the claim asserts. -/
theorem claim_C8_counterexample :
    mapGet c8cex 0 fW.ref = 0 ∧
    c8cex.documents = [11] ∧
    (unbind c8cex fW 0).documents = [] := by
  refine ⟨by decide, rfl, ?_⟩
  rw [unbind]
  simp [unbindPrelude, fW, dW, DomTree.frameOwner, DomTree.contentDoc, removeCssDoc,
    stopListening, c8cex, initCore, mapGet, getTbl, aget, DomTree.ref]

/-- C8 witness: the amended theorem applied at the counterexample state. -/
theorem claim_C8_witness :
    mapGet c8cex 0 fW.ref = 0 ∧
    (unbind c8cex fW 0).liveMap = c8cex.liveMap ∧
    (unbind c8cex fW 0).documents = c8cex.documents.filter (fun x => x ≠ 11) := by
  have h := claim_C8_unbind_unbound c8cex fW 0 (by decide)
  exact ⟨by decide, h.1.2.1, (h.2.2.1 dW rfl rfl).1⟩

end InspectorDOM

namespace InspectorDOM

/-- C1 (binding idempotence): a second `bind` of the same node into the
same map returns the identifier of the first call and leaves the entire
state unchanged — in particular no new identifier is allocated and the
map is unchanged, so a bound node keeps its identifier.  The hypotheses
hold in every reachable state: the counter starts at 1 and never
decreases, and the C++ map pointer always designates a live map. -/
theorem claim_C1_bind_idempotent (c : Core) (r mR : Nat)
    (hc : 0 < c.lastNodeId) (hv : validMapRef c mR) :
    bind (bind c r mR).2 r mR = ((bind c r mR).1, (bind c r mR).2) := by
  have h := mapGet_bind_self c r mR hc hv
  conv_lhs => rw [bind]
  rw [h.1, if_pos h.2]

/-- C1 witness. -/
theorem claim_C1_witness :
    0 < initCore.lastNodeId ∧
    bind (bind initCore 3 0).2 3 0 = ((bind initCore 3 0).1, (bind initCore 3 0).2) :=
  ⟨by decide, claim_C1_bind_idempotent initCore 3 0 (by decide) (Or.inl rfl)⟩

/-- C10: the constructor starts the id counter at 1; `bind` never returns
identifier 0 (in any state with a positive counter, which the constructor
establishes and `bind` preserves); `nodeForId 0` is null without
consulting the global index (even if an entry keyed 0 were present); and
an out-of-range index into the recently-inspected list yields 0. -/
theorem claim_C10_zero_sentinel :
    initCore.lastNodeId = 1 ∧
    (∀ c r mR, 0 < c.lastNodeId → (bind c r mR).1 ≠ 0 ∧ 0 < (bind c r mR).2.lastNodeId) ∧
    (∀ c, nodeForId c 0 = none) ∧
    (∀ (c : Core) (r : Nat), nodeForId { c with idToNode := (0, r) :: c.idToNode } 0 = none) ∧
    (∀ c num, c.inspectedNodes.length ≤ num → inspectedNode c num = 0) := by
  refine ⟨rfl, ?_, ?_, ?_, ?_⟩
  · intro c r mR hc
    unfold bind
    by_cases h : mapGet c mR r ≠ 0
    · rw [if_pos h]
      exact ⟨h, hc⟩
    · rw [if_neg h]
      refine ⟨by show c.lastNodeId ≠ 0; omega, ?_⟩
      have hs := (setTbl_fields { c with lastNodeId := c.lastNodeId + 1 } mR
        (aset (getTbl { c with lastNodeId := c.lastNodeId + 1 } mR) r c.lastNodeId)).1
      show 0 < (setTbl _ _ _).lastNodeId
      rw [hs]
      show 0 < c.lastNodeId + 1
      omega
  · intro c
    unfold nodeForId
    rw [if_pos rfl]
  · intro c r
    unfold nodeForId
    rw [if_pos rfl]
  · intro c num h
    unfold inspectedNode
    rw [dif_neg (by omega)]

/-- C10 witness. -/
theorem claim_C10_witness :
    0 < initCore.lastNodeId ∧ (bind initCore 5 0).1 ≠ 0 ∧
    nodeForId initCore 0 = none ∧
    initCore.inspectedNodes.length ≤ 7 ∧ inspectedNode initCore 7 = 0 :=
  ⟨by decide, (claim_C10_zero_sentinel.2.1 initCore 5 0 (by decide)).1,
   claim_C10_zero_sentinel.2.2.1 initCore,
   by decide, claim_C10_zero_sentinel.2.2.2.2 initCore 7 (by decide)⟩

theorem bind_fresh (c : Core) (r mR : Nat) (h : mapGet c mR r = 0) :
    (bind c r mR).1 = c.lastNodeId := by
  unfold bind
  rw [if_neg (by rw [h]; simp)]

theorem getTbl_clearDisclosure (c : Core) (i mR : Nat) :
    getTbl (clearDisclosure c i) mR = getTbl c mR := rfl

theorem unbind_self_removed (c : Core) (n : DomTree) (mR : Nat)
    (hv : validMapRef c mR) :
    mapGet (unbind c n mR) mR n.ref = 0 := by
  have hvp : validMapRef (unbindPrelude c n) mR := by
    unfold validMapRef at hv ⊢
    rwa [(unbindPrelude_fields c n).2.2.1]
  have hrem : ∀ i, mapGet (unbindRemove (unbindPrelude c n) n.ref i mR) mR n.ref = 0 := by
    intro i
    unfold unbindRemove mapGet
    have hvp2 : validMapRef { unbindPrelude c n with
      idToNode := aremove (unbindPrelude c n).idToNode i } mR := hvp
    rw [getTbl_setTbl_self _ _ _ hvp2, aget_aremove_self]
    rfl
  rw [unbind]
  by_cases h0 : mapGet (unbindPrelude c n) mR n.ref = 0
  · rw [if_pos h0]
    exact h0
  · rw [if_neg h0]
    by_cases h1 : mapGet (unbindPrelude c n) mR n.ref ∈
        (unbindRemove (unbindPrelude c n) n.ref (mapGet (unbindPrelude c n) mR n.ref) mR).childrenRequested
    · rw [if_pos h1]
      have hm := unbind_mono.2 (visChildren n)
        (touchScope (clearDisclosure (unbindRemove (unbindPrelude c n) n.ref
          (mapGet (unbindPrelude c n) mR n.ref) mR) (mapGet (unbindPrelude c n) mR n.ref)) n) mR
      rcases hm.1 mR n.ref with hc2 | hc2
      · rw [hc2]
        unfold mapGet
        rw [getTbl_touchScope, getTbl_clearDisclosure]
        exact hrem _
      · exact hc2
    · rw [if_neg h1]
      exact hrem _

/-- Generic closure principle for the builders: a reflexive transitive
relation preserved by `bind` and by touching a scope relates every state
to the builders' output states. -/
theorem build_rel {Q : Core → Core → Prop}
    (htrans : ∀ {a b c2 : Core}, Q a b → Q b c2 → Q a c2)
    (hrefl : ∀ c, Q c c)
    (hbind : ∀ c r mR, Q c (bind c r mR).2)
    (htouch : ∀ c n, Q c (touchScope c n)) :
    (∀ n (c : Core) depth mR, Q c (buildObjectForNode c n depth mR).2) ∧
    (∀ (container : DomTree) (c : Core) depth mR,
      Q c (buildArrayForContainerChildren c container depth mR).2) ∧
    (∀ ts (c : Core) depth mR, Q c (buildList c ts depth mR).2) := by
  have H : ∀ k n, n.sz ≤ k → (∀ (c : Core) depth mR,
      Q c (buildObjectForNode c n depth mR).2 ∧
      Q c (buildArrayForContainerChildren c n depth mR).2) := by
    intro k
    induction k with
    | zero =>
      intro n hn
      have := sz_pos n
      omega
    | succ k ih =>
      intro n hn
      have hlist : ∀ ts, (∀ t ∈ ts, t.sz < n.sz) → ∀ (c : Core) depth mR,
          Q c (buildList c ts depth mR).2 := by
        intro ts
        induction ts with
        | nil =>
          intro _ c depth mR
          rw [buildList]
          exact hrefl c
        | cons t rest ihl =>
          intro hts c depth mR
          rw [buildList]
          have h1 := (ih t (by have := hts t (by simp); omega) c depth mR).1
          have h2 := ihl (fun x hx => hts x (by simp [hx]))
            (buildObjectForNode c t depth mR).2 depth mR
          exact htrans h1 h2
      have harr : ∀ (c : Core) depth mR,
          Q c (buildArrayForContainerChildren c n depth mR).2 := by
        intro c depth mR
        rw [buildArrayForContainerChildren]
        by_cases hd : depth = 0
        · rw [if_pos hd]
          by_cases hcnt : (innerChildNodeCount c n).1 = 1
          · rw [if_pos hcnt]
            split
            next child hh =>
              by_cases hk : child.kind = NodeKind.text
              · rw [if_pos hk]
                have s1 : Q c (innerChildNodeCount c n).2 := htouch c n
                have s2 := htouch (innerChildNodeCount c n).2 n
                have hchild := sz_mem_visChildren_lt (head?_mem hh)
                have s3 := (ih child (by omega)
                  (touchScope (innerChildNodeCount c n).2 n) 0 mR).1
                exact htrans s1 (htrans s2 s3)
              · rw [if_neg hk]
                exact htrans (htouch c n) (htouch _ n)
            next hh => exact htrans (htouch c n) (htouch _ n)
          · rw [if_neg hcnt]
            exact htouch c n
        · rw [if_neg hd]
          exact htrans (htouch c n)
            (hlist (visChildren n) (fun t ht => sz_mem_visChildren_lt ht) _ _ mR)
      intro c depth mR
      refine ⟨?_, harr c depth mR⟩
      rw [buildObjectForNode]
      by_cases hck : containerKind n.kind = true
      · rw [if_pos hck]
        have s1 := hbind c n.ref mR
        have s2 := htouch (bind c n.ref mR).2 n
        have s3 := harr (touchScope (bind c n.ref mR).2 n) depth mR
        exact htrans s1 (htrans s2 s3)
      · rw [if_neg hck]
        exact hbind c n.ref mR
  have main1 : ∀ n (c : Core) depth mR, Q c (buildObjectForNode c n depth mR).2 :=
    fun n c depth mR => (H n.sz n le_rfl c depth mR).1
  have main2 : ∀ (n : DomTree) (c : Core) depth mR,
      Q c (buildArrayForContainerChildren c n depth mR).2 :=
    fun n c depth mR => (H n.sz n le_rfl c depth mR).2
  refine ⟨main1, main2, ?_⟩
  intro ts
  induction ts with
  | nil =>
    intro c depth mR
    rw [buildList]
    exact hrefl c
  | cons t rest ihl =>
    intro c depth mR
    rw [buildList]
    exact htrans (main1 t c depth mR) (ihl _ depth mR)

end InspectorDOM

namespace InspectorDOM

/-- The builders only bind nodes and touch scopes: they emit nothing, never
change the disclosure set, the recently-inspected list or the number of
maps, and never decrease the id counter. -/
theorem build_frame :
    (∀ n (c : Core) depth mR,
      (buildObjectForNode c n depth mR).2.msgs = c.msgs ∧
      (buildObjectForNode c n depth mR).2.childrenRequested = c.childrenRequested ∧
      (buildObjectForNode c n depth mR).2.inspectedNodes = c.inspectedNodes ∧
      c.lastNodeId ≤ (buildObjectForNode c n depth mR).2.lastNodeId ∧
      (buildObjectForNode c n depth mR).2.danglingMaps.length = c.danglingMaps.length) ∧
    (∀ (container : DomTree) (c : Core) depth mR,
      (buildArrayForContainerChildren c container depth mR).2.msgs = c.msgs ∧
      (buildArrayForContainerChildren c container depth mR).2.childrenRequested = c.childrenRequested ∧
      (buildArrayForContainerChildren c container depth mR).2.inspectedNodes = c.inspectedNodes ∧
      c.lastNodeId ≤ (buildArrayForContainerChildren c container depth mR).2.lastNodeId ∧
      (buildArrayForContainerChildren c container depth mR).2.danglingMaps.length = c.danglingMaps.length) ∧
    (∀ ts (c : Core) depth mR,
      (buildList c ts depth mR).2.msgs = c.msgs ∧
      (buildList c ts depth mR).2.childrenRequested = c.childrenRequested ∧
      (buildList c ts depth mR).2.inspectedNodes = c.inspectedNodes ∧
      c.lastNodeId ≤ (buildList c ts depth mR).2.lastNodeId ∧
      (buildList c ts depth mR).2.danglingMaps.length = c.danglingMaps.length) := by
  have h := build_rel (Q := fun a b => b.msgs = a.msgs ∧
      b.childrenRequested = a.childrenRequested ∧
      b.inspectedNodes = a.inspectedNodes ∧
      a.lastNodeId ≤ b.lastNodeId ∧
      b.danglingMaps.length = a.danglingMaps.length)
    (by
      rintro a b c2 ⟨h1, h2, h3, h4, h5⟩ ⟨g1, g2, g3, g4, g5⟩
      exact ⟨g1.trans h1, g2.trans h2, g3.trans h3, h4.trans g4, g5.trans h5⟩)
    (fun c => ⟨rfl, rfl, rfl, le_rfl, rfl⟩)
    (by
      intro c r mR
      unfold bind
      by_cases h : mapGet c mR r ≠ 0
      · rw [if_pos h]
        exact ⟨rfl, rfl, rfl, le_rfl, rfl⟩
      · rw [if_neg h]
        have hs := setTbl_fields { c with lastNodeId := c.lastNodeId + 1 } mR
          (aset (getTbl { c with lastNodeId := c.lastNodeId + 1 } mR) r c.lastNodeId)
        refine ⟨?_, ?_, ?_, ?_, ?_⟩
        · show (setTbl _ _ _).msgs = c.msgs
          rw [hs.2.2.2.2.2.2.2.1]
        · show (setTbl _ _ _).childrenRequested = c.childrenRequested
          rw [hs.2.2.2.1]
        · show (setTbl _ _ _).inspectedNodes = c.inspectedNodes
          rw [hs.2.2.2.2.2.2.1]
        · show c.lastNodeId ≤ (setTbl _ _ _).lastNodeId
          rw [hs.1]
          show c.lastNodeId ≤ c.lastNodeId + 1
          omega
        · show (setTbl _ _ _).danglingMaps.length = c.danglingMaps.length
          exact hs.2.2.2.2.2.2.2.2)
    (by
      intro c n
      have hf := touchScope_fields c n
      exact ⟨hf.2.2.2.2.2.2.2.2, hf.2.2.2.2.2.1, hf.2.2.2.2.2.2.2.1,
        le_of_eq hf.1.symm, by rw [hf.2.2.1]⟩)
  exact h

theorem buildObject_objId (c : Core) (n : DomTree) (depth : Int) (mR : Nat) :
    (buildObjectForNode c n depth mR).1.objId = (bind c n.ref mR).1 := by
  rw [buildObjectForNode]
  by_cases h : containerKind n.kind = true
  · rw [if_pos h]
    rfl
  · rw [if_neg h]
    rfl

/-- A non-boundary node with no id: `unbind` is the identity. -/
theorem unbind_not_fo_unbound (c : Core) (n : DomTree) (mR : Nat)
    (hfo : n.frameOwner = false) (h : mapGet c mR n.ref = 0) :
    unbind c n mR = c := by
  have hp : unbindPrelude c n = c := by
    unfold unbindPrelude
    rw [hfo]
    simp
  rw [unbind, hp, if_pos h]

end InspectorDOM

namespace InspectorDOM

/-- C4 (insertion signal selection): for a structurally significant node
at position `i` of its parent's child list, after the defensive unbind:
if the parent has no live id nothing is sent; if the parent's children
are not disclosed a single child-count-updated record carries the current
visible child count; otherwise a single child-inserted record carries the
parent's id, the preceding visible sibling's id (0 when the node is the
first visible child), and the node's freshly bound description, whose id
is the counter value (a fresh allocation, since the defensive unbind left
the node unbound). -/
theorem claim_C4_insert_signal (c : Core) (parent node : DomTree) (i : Nat)
    (hnode : parent.children[i]? = some node) (hsig : isWs node = false) :
    (mapGet (unbind c node 0) 0 parent.ref = 0 →
      didInsertDOMNode c parent i = unbind c node 0 ∧
      (didInsertDOMNode c parent i).msgs = c.msgs) ∧
    (mapGet (unbind c node 0) 0 parent.ref ≠ 0 →
      mapGet (unbind c node 0) 0 parent.ref ∉ (unbind c node 0).childrenRequested →
      (didInsertDOMNode c parent i).msgs = c.msgs ++
        [Msg.childNodeCountUpdated (mapGet (unbind c node 0) 0 parent.ref)
          (visChildren parent).length]) ∧
    (mapGet (unbind c node 0) 0 parent.ref ≠ 0 →
      mapGet (unbind c node 0) 0 parent.ref ∈ (unbind c node 0).childrenRequested →
      (didInsertDOMNode c parent i).msgs = c.msgs ++
        [Msg.childNodeInserted (mapGet (unbind c node 0) 0 parent.ref)
          (match innerPreviousSiblingOf parent i with
           | some p => mapGet (unbind c node 0) 0 p.ref
           | none => 0)
          (buildObjectForNode (unbind c node 0) node 0 0).1] ∧
      mapGet (unbind c node 0) 0 node.ref = 0 ∧
      (buildObjectForNode (unbind c node 0) node 0 0).1.objId =
        (unbind c node 0).lastNodeId) := by
  have humsgs : (unbind c node 0).msgs = c.msgs := (unbind_frame.1 node c 0).2.1
  have hdef : didInsertDOMNode c parent i =
      (if isWs node = true then c
       else
        let c1 := unbind c node 0
        let parentId := mapGet c1 0 parent.ref
        if parentId = 0 then c1
        else if parentId ∈ c1.childrenRequested then
          let prevId :=
            match innerPreviousSiblingOf parent i with
            | some p => mapGet c1 0 p.ref
            | none => 0
          let r := buildObjectForNode c1 node 0 0
          emit r.2 (.childNodeInserted parentId prevId r.1)
        else
          let q := innerChildNodeCount c1 parent
          emit q.2 (.childNodeCountUpdated parentId q.1)) := by
    unfold didInsertDOMNode
    rw [hnode]
  rw [hdef]
  simp only [hsig, Bool.false_eq_true, if_false]
  refine ⟨?_, ?_, ?_⟩
  · intro h0
    rw [if_pos h0]
    exact ⟨rfl, humsgs⟩
  · intro h0 h1
    rw [if_neg h0, if_neg h1]
    show (emit (touchScope (unbind c node 0) parent) _).msgs = _
    unfold emit
    simp only
    rw [(touchScope_fields (unbind c node 0) parent).2.2.2.2.2.2.2.2, humsgs]
    rfl
  · intro h0 h1
    rw [if_neg h0, if_pos h1]
    refine ⟨?_, ?_, ?_⟩
    · show (emit (buildObjectForNode (unbind c node 0) node 0 0).2 _).msgs = _
      unfold emit
      simp only
      rw [(build_frame.1 node (unbind c node 0) 0 0).1, humsgs]
    · exact unbind_self_removed c node 0 (Or.inl rfl)
    · rw [buildObject_objId, bind_fresh _ _ _ (unbind_self_removed c node 0 (Or.inl rfl))]

end InspectorDOM

namespace InspectorDOM

/-- C5 (removal signal selection): for a structurally significant node at
position `i` of its parent's child list, with the entry point running
while the node is still attached (the count it reads is the pre-removal
visible count): if the parent has no live id the call is a complete
no-op; with undisclosed children a child-count-updated record with count 0
is sent exactly when the pre-removal visible child count is 1 (otherwise
nothing is sent); with disclosed children one child-removed record
carrying the parent's id and the node's id is sent, and only then is the
node unbound. -/
theorem claim_C5_remove_signal (c : Core) (parent node : DomTree) (i : Nat)
    (hnode : parent.children[i]? = some node) (hsig : isWs node = false) :
    (mapGet c 0 parent.ref = 0 → didRemoveDOMNode c parent i = c) ∧
    (mapGet c 0 parent.ref ≠ 0 → mapGet c 0 parent.ref ∉ c.childrenRequested →
      ((visChildren parent).length = 1 →
        (didRemoveDOMNode c parent i).msgs = c.msgs ++
          [Msg.childNodeCountUpdated (mapGet c 0 parent.ref) 0]) ∧
      ((visChildren parent).length ≠ 1 →
        (didRemoveDOMNode c parent i).msgs = c.msgs)) ∧
    (mapGet c 0 parent.ref ≠ 0 → mapGet c 0 parent.ref ∈ c.childrenRequested →
      didRemoveDOMNode c parent i =
        unbind (emit c (Msg.childNodeRemoved (mapGet c 0 parent.ref)
          (mapGet c 0 node.ref))) node 0 ∧
      (didRemoveDOMNode c parent i).msgs = c.msgs ++
        [Msg.childNodeRemoved (mapGet c 0 parent.ref) (mapGet c 0 node.ref)]) := by
  have hdef : didRemoveDOMNode c parent i =
      (if isWs node = true then c
       else
        let parentId := mapGet c 0 parent.ref
        if parentId = 0 then c
        else
          let c1 :=
            if parentId ∈ c.childrenRequested then
              emit c (.childNodeRemoved parentId (mapGet c 0 node.ref))
            else
              let q := innerChildNodeCount c parent
              if q.1 = 1 then emit q.2 (.childNodeCountUpdated parentId 0) else q.2
          unbind c1 node 0) := by
    unfold didRemoveDOMNode
    rw [hnode]
  rw [hdef]
  simp only [hsig, Bool.false_eq_true, if_false]
  refine ⟨?_, ?_, ?_⟩
  · intro h0
    rw [if_pos h0]
  · intro h0 h1
    rw [if_neg h0, if_neg h1]
    constructor
    · intro hcnt
      have hc1 : (innerChildNodeCount c parent).1 = 1 := hcnt
      rw [if_pos hc1]
      rw [(unbind_frame.1 node _ 0).2.1]
      show (touchScope c parent).msgs ++ _ = _
      rw [(touchScope_fields c parent).2.2.2.2.2.2.2.2]
    · intro hcnt
      have hc1 : ¬ (innerChildNodeCount c parent).1 = 1 := hcnt
      rw [if_neg hc1]
      rw [(unbind_frame.1 node _ 0).2.1]
      exact (touchScope_fields c parent).2.2.2.2.2.2.2.2
  · intro h0 h1
    rw [if_neg h0, if_pos h1]
    refine ⟨rfl, ?_⟩
    rw [(unbind_frame.1 node _ 0).2.1]
    rfl

end InspectorDOM

namespace InspectorDOM


/-- C4 witness: inserting the span as third child of a disclosed, bound
parent sends one precise child-inserted record whose preceding visible
sibling is the div (the whitespace text between them is skipped). -/
theorem claim_C4_witness :
    bodyW.children[2]? = some spanW ∧ isWs spanW = false ∧
    (didInsertDOMNode c4w bodyW 2).msgs =
      [Msg.childNodeInserted 3 4 (buildObjectForNode c4w spanW 0 0).1] := by
  have hu : unbind c4w spanW 0 = c4w := unbind_not_fo_unbound _ _ _ rfl (by decide)
  refine ⟨rfl, rfl, ?_⟩
  have h := (claim_C4_insert_signal c4w bodyW spanW 2 rfl rfl).2.2
    (by rw [hu]; decide) (by rw [hu]; decide)
  have h1 := h.1
  rw [hu] at h1
  rw [h1]
  rfl

/-- C5 witness: removing the bound span from under a disclosed, bound
parent sends exactly one child-removed record carrying the parent's and
the span's ids. -/
theorem claim_C5_witness :
    bodyW.children[2]? = some spanW ∧ isWs spanW = false ∧
    (didRemoveDOMNode c5w bodyW 2).msgs = [Msg.childNodeRemoved 3 5] := by
  refine ⟨rfl, rfl, ?_⟩
  exact ((claim_C5_remove_signal c5w bodyW spanW 2 rfl rfl).2.2 (by decide) (by decide)).2

end InspectorDOM

namespace InspectorDOM


/-- C9 (code bug): when the markup-replacement primitive refuses the edit,
`setOuterHTML` sends the failure response `didSetOuterHTML(callId, 0)` but
does not return: it falls through, re-resolves the (unchanged) node and
sends a second response for the same call identifier. -/
theorem claim_C9_double_response :
    (setOuterHTML dom9 dom9 c9w 7 2 true).msgs =
      [Msg.didSetOuterHTML 7 0, Msg.didSetOuterHTML 7 2] := by
  simp [setOuterHTML, nodeForId, aget, c9w, initCore, dom9, doc9, el9,
    findInList, findInTree, findInOpt, DomTree.ref, DomTree.htmlEl, DomTree.kind,
    DomTree.contentDoc, DomTree.children, rawPrevSiblingRef, rawParentInList,
    rawParentInTree, rawParentInOpt, idxOfRef, firstChildRef,
    pushNodePathToFrontend, pushDocumentToFrontend, mapGet, getTbl, emit,
    List.findIdx?, rawNextSiblingRef]

end InspectorDOM

namespace InspectorDOM

theorem reportLoop_spec (dom : List DomTree) :
    ∀ (coll : List Nat) (c : Core) (results : List Nat),
      (reportLoop dom c results coll).results =
        results ++ (reportLoop dom c results coll).added ∧
      (∀ n, n ∈ (reportLoop dom c results coll).added → n ∈ coll ∧ n ∉ results) ∧
      (∀ n, n ∈ coll → n ∉ results → n ∈ (reportLoop dom c results coll).added) ∧
      (reportLoop dom c results coll).added.Nodup := by
  intro coll
  induction coll with
  | nil =>
    intro c results
    refine ⟨by simp [reportLoop], ?_, ?_, by simp [reportLoop]⟩
    · intro n hn
      simp [reportLoop] at hn
    · intro n hn
      simp at hn
  | cons m rest ih =>
    intro c results
    rw [reportLoop]
    by_cases hm : m ∈ results
    · rw [if_pos hm]
      obtain ⟨h1, h2, h3, h4⟩ := ih c results
      refine ⟨h1, ?_, ?_, h4⟩
      · intro n hn
        obtain ⟨ha, hb⟩ := h2 n hn
        exact ⟨List.mem_cons_of_mem _ ha, hb⟩
      · intro n hn hnr
        rcases List.mem_cons.mp hn with rfl | hn2
        · exact absurd hm hnr
        · exact h3 n hn2 hnr
    · rw [if_neg hm]
      obtain ⟨h1, h2, h3, h4⟩ :=
        ih (pushNodePathToFrontend dom c m).2 (results ++ [m])
      refine ⟨?_, ?_, ?_, ?_⟩
      · show (reportLoop dom _ _ rest).results = results ++ (m :: _)
        rw [h1]
        simp
      · intro n hn
        rcases List.mem_cons.mp hn with rfl | hn2
        · exact ⟨List.mem_cons_self _ _, hm⟩
        · obtain ⟨ha, hb⟩ := h2 n hn2
          refine ⟨List.mem_cons_of_mem _ ha, ?_⟩
          intro hc
          exact hb (by simp [hc])
      · intro n hn hnr
        rcases List.mem_cons.mp hn with rfl | hn2
        · exact List.mem_cons_self _ _
        · by_cases hnm : n = m
          · subst hnm
            exact List.mem_cons_self _ _
          · refine List.mem_cons_of_mem _ (h3 n hn2 ?_)
            simp [hnr, hnm]
      · refine List.nodup_cons.mpr ⟨?_, h4⟩
        intro hmem
        exact (h2 m hmem).2 (by simp)

/-- C7 (search de-duplication): a node already in the de-dup set is never
among the nodes a `reportNodesAsSearchResults` call reports (and one call
never reports the same node twice); `searchCanceled` discards the pending
jobs, the de-dup set and the timer while leaving the binding core alone
(safe when idle); after canceling, a collected node is reported again.
The reported set always extends the de-dup set by exactly the newly
reported nodes. -/
theorem claim_C7_search_dedup :
    (∀ dom (a : Agent) coll n, n ∈ a.searchResults →
      n ∉ (reportNodesAsSearchResults dom a coll).2) ∧
    (∀ a : Agent, (searchCanceled a).pendingMatchJobs = [] ∧
      (searchCanceled a).searchResults = [] ∧
      (searchCanceled a).matchJobsTimerActive = false ∧
      (searchCanceled a).core = a.core) ∧
    (∀ dom (a : Agent) coll n, n ∈ coll →
      n ∈ (reportNodesAsSearchResults dom (searchCanceled a) coll).2) ∧
    (∀ dom (a : Agent) coll,
      (reportNodesAsSearchResults dom a coll).2.Nodup ∧
      (reportNodesAsSearchResults dom a coll).1.searchResults =
        a.searchResults ++ (reportNodesAsSearchResults dom a coll).2) := by
  refine ⟨?_, ?_, ?_, ?_⟩
  · intro dom a coll n hn hmem
    exact ((reportLoop_spec dom coll a.core a.searchResults).2.1 n hmem).2 hn
  · intro a
    exact ⟨rfl, rfl, rfl, rfl⟩
  · intro dom a coll n hn
    exact (reportLoop_spec dom coll (searchCanceled a).core []).2.2.1 n hn
      (List.not_mem_nil n)
  · intro dom a coll
    obtain ⟨h1, h2, h3, h4⟩ := reportLoop_spec dom coll a.core a.searchResults
    exact ⟨h4, h1⟩

end InspectorDOM

namespace InspectorDOM


/-- C7 witness: with node 2 already in the de-dup set, reporting the
collector `[2, 1]` does not report node 2 again; canceling clears the
session; after canceling, reporting `[2, 1]` reports node 2 again. -/
theorem claim_C7_witness :
    (2 ∈ a7.searchResults ∧ 2 ∉ (reportNodesAsSearchResults dom9 a7 [2, 1]).2) ∧
    ((searchCanceled a7).pendingMatchJobs = [] ∧
      (searchCanceled a7).searchResults = [] ∧
      (searchCanceled a7).matchJobsTimerActive = false ∧
      (searchCanceled a7).core = a7.core) ∧
    (2 ∈ ([2, 1] : List Nat) ∧
      2 ∈ (reportNodesAsSearchResults dom9 (searchCanceled a7) [2, 1]).2) :=
  ⟨⟨by decide, claim_C7_search_dedup.1 dom9 a7 [2, 1] 2 (by decide)⟩,
   claim_C7_search_dedup.2.1 a7,
   ⟨by decide, claim_C7_search_dedup.2.2.1 dom9 a7 [2, 1] 2 (by decide)⟩⟩

end InspectorDOM

namespace InspectorDOM


theorem bindInv_mem_congr {c : Core} {l1 l2 : List ((Nat × Nat) × Nat)}
    (h : ∀ x, x ∈ l1 ↔ x ∈ l2) (hi : BindInv c l1) : BindInv c l2 := by
  obtain ⟨h1, h2, h3, h4⟩ := hi
  exact ⟨fun e he => h1 e ((h e).mpr he),
    fun mR r hr => (h _).mp (h2 mR r hr),
    fun e1 he1 e2 he2 => h3 e1 ((h e1).mpr he1) e2 ((h e2).mpr he2), h4⟩

theorem bind_mapGet_other (c : Core) (r mR r' mR' : Nat)
    (h : (mR', r') ≠ (mR, r)) :
    mapGet (bind c r mR).2 mR' r' = mapGet c mR' r' := by
  unfold bind
  by_cases h0 : mapGet c mR r ≠ 0
  · rw [if_pos h0]
  · rw [if_neg h0]
    show mapGet ({ setTbl _ _ _ with idToNode := _, idToNodesMap := _ }) mR' r' = _
    unfold mapGet
    rw [getTbl_update_idMaps]
    by_cases hm : mR' = mR
    · subst hm
      have hr : r' ≠ r := by
        intro he
        exact h (by rw [he])
      by_cases hv : validMapRef { c with lastNodeId := c.lastNodeId + 1 } mR'
      · rw [getTbl_setTbl_self _ _ _ hv, aget_aset_ne _ _ _ _ hr]
        rfl
      · rw [getTbl_setTbl_invalid _ _ _ hv]
        rfl
    · rw [getTbl_setTbl_ne _ _ _ _ hm]
      rfl

theorem bind_mapGet_self_or (c : Core) (r mR : Nat) :
    mapGet (bind c r mR).2 mR r = (bind c r mR).1 ∨
    mapGet (bind c r mR).2 mR r = mapGet c mR r := by
  unfold bind
  by_cases h0 : mapGet c mR r ≠ 0
  · rw [if_pos h0]
    exact Or.inl rfl
  · rw [if_neg h0]
    by_cases hv : validMapRef { c with lastNodeId := c.lastNodeId + 1 } mR
    · left
      show mapGet _ mR r = c.lastNodeId
      unfold mapGet
      rw [getTbl_update_idMaps, getTbl_setTbl_self _ _ _ hv, aget_aset_self]
      rfl
    · right
      show mapGet _ mR r = _
      unfold mapGet
      rw [getTbl_update_idMaps, getTbl_setTbl_invalid _ _ _ hv]
      rfl

theorem bind_lastNodeId (c : Core) (r mR : Nat) :
    (bind c r mR).2.lastNodeId = c.lastNodeId ∨
    ((bind c r mR).2.lastNodeId = c.lastNodeId + 1 ∧ (bind c r mR).1 = c.lastNodeId) := by
  unfold bind
  by_cases h0 : mapGet c mR r ≠ 0
  · rw [if_pos h0]
    exact Or.inl rfl
  · rw [if_neg h0]
    right
    constructor
    · show (setTbl _ _ _).lastNodeId = _
      rw [(setTbl_fields _ _ _).1]
    · rfl

theorem bind_step_inv (c : Core) (r mR : Nat) (log : List ((Nat × Nat) × Nat))
    (hi : BindInv c log) :
    BindInv (bind c r mR).2 (((mR, r), (bind c r mR).1) :: log) := by
  obtain ⟨h1, h2, h3, h4⟩ := hi
  by_cases h0 : mapGet c mR r ≠ 0
  · have heq : bind c r mR = (mapGet c mR r, c) := by
      unfold bind
      rw [if_pos h0]
    rw [heq]
    have hmem : ((mR, r), mapGet c mR r) ∈ log := h2 mR r h0
    refine ⟨?_, ?_, ?_, h4⟩
    · intro e he
      rcases List.mem_cons.mp he with rfl | he2
      · exact h1 _ hmem
      · exact h1 e he2
    · intro mR' r' hr
      exact List.mem_cons_of_mem _ (h2 mR' r' hr)
    · intro e1 he1 e2 he2 hne
      rcases List.mem_cons.mp he1 with rfl | he1b <;>
        rcases List.mem_cons.mp he2 with rfl | he2b
      · exact absurd rfl hne
      · exact h3 _ hmem e2 he2b hne
      · exact h3 e1 he1b _ hmem hne
      · exact h3 e1 he1b e2 he2b hne
  · push_neg at h0
    have hfr : (bind c r mR).1 = c.lastNodeId := bind_fresh c r mR h0
    have hlast : (bind c r mR).2.lastNodeId = c.lastNodeId + 1 := by
      unfold bind
      rw [if_neg (by rw [h0]; simp)]
      show (setTbl _ _ _).lastNodeId = _
      rw [(setTbl_fields _ _ _).1]
    refine ⟨?_, ?_, ?_, by rw [hlast]; omega⟩
    · intro e he
      rcases List.mem_cons.mp he with rfl | he2
      · rw [hlast]
        simp only [hfr]
        omega
      · have hh := h1 e he2
        rw [hlast]
        exact ⟨hh.1, by omega⟩
    · intro mR' r' hr
      by_cases hp : (mR', r') = (mR, r)
      · have hm : mR' = mR := congrArg Prod.fst hp
        have hrr : r' = r := congrArg Prod.snd hp
        subst hm
        subst hrr
        rcases bind_mapGet_self_or c r' mR' with hs | hs
        · rw [hs, hfr]
          exact List.mem_cons_self _ _
        · rw [hs, h0] at hr
          exact absurd rfl hr
      · rw [bind_mapGet_other c r mR r' mR' hp] at hr ⊢
        exact List.mem_cons_of_mem _ (h2 mR' r' hr)
    · intro e1 he1 e2 he2 hne
      rcases List.mem_cons.mp he1 with rfl | he1b <;>
        rcases List.mem_cons.mp he2 with rfl | he2b
      · exact absurd rfl hne
      · have := (h1 e2 he2b).2
        simp only [hfr]
        omega
      · have := (h1 e1 he1b).2
        simp only [hfr]
        omega
      · exact h3 e1 he1b e2 he2b hne

end InspectorDOM

namespace InspectorDOM

theorem unbind_step_inv (c : Core) (t : DomTree) (mR : Nat)
    (log : List ((Nat × Nat) × Nat)) (hi : BindInv c log) :
    BindInv (unbind c t mR) log := by
  obtain ⟨h1, h2, h3, h4⟩ := hi
  have hl : (unbind c t mR).lastNodeId = c.lastNodeId := (unbind_frame.1 t c mR).1
  refine ⟨?_, ?_, h3, by rw [hl]; exact h4⟩
  · intro e he
    rw [hl]
    exact h1 e he
  · intro mR' r hr
    rcases (unbind_mono.1 t c mR).1 mR' r with hs | hs
    · rw [hs] at hr ⊢
      exact h2 mR' r hr
    · rw [hs] at hr
      exact absurd rfl hr

theorem mapGet_discard (c : Core) (mR r : Nat) :
    mapGet (discardBindings c) mR r = 0 := by
  unfold mapGet getTbl discardBindings
  by_cases h : mR = 0
  · rw [if_pos h]
    rfl
  · rw [if_neg h]
    rfl

theorem discard_step_inv (c : Core) (log : List ((Nat × Nat) × Nat))
    (hi : BindInv c log) : BindInv (discardBindings c) log := by
  obtain ⟨h1, h2, h3, h4⟩ := hi
  refine ⟨h1, ?_, h3, h4⟩
  intro mR r hr
  rw [mapGet_discard] at hr
  exact absurd rfl hr

theorem runOps_inv : ∀ (ops : List SessionOp) (c : Core) log, BindInv c log →
    BindInv (runOpsLog c ops).1 ((runOpsLog c ops).2 ++ log) := by
  intro ops
  induction ops with
  | nil =>
    intro c log hi
    rw [runOpsLog]
    exact hi
  | cons op rest ih =>
    intro c log hi
    cases op with
    | bindOp r mR =>
      rw [runOpsLog]
      have hstep := bind_step_inv c r mR log hi
      have hrec := ih (bind c r mR).2 (((mR, r), (bind c r mR).1) :: log) hstep
      refine bindInv_mem_congr ?_ hrec
      intro x
      simp only [List.mem_append, List.mem_cons]
      tauto
    | unbindOp t mR =>
      rw [runOpsLog]
      exact ih (unbind c t mR) log (unbind_step_inv c t mR log hi)
    | discardOp =>
      rw [runOpsLog]
      exact ih (discardBindings c) log (discard_step_inv c log hi)

/-- C2 (global identifier uniqueness): along any session trace of `bind`,
`unbind` and reset operations from the initial state, the identifiers
`bind` returns for two distinct (map, node) pairs are distinct — all ids
are drawn from the single monotonically increasing session counter — and
every returned id is nonzero. -/
theorem claim_C2_global_id_uniqueness (ops : List SessionOp) :
    ∀ (i j : Nat) (e1 e2 : (Nat × Nat) × Nat),
      (runOpsLog initCore ops).2[i]? = some e1 →
      (runOpsLog initCore ops).2[j]? = some e2 →
      e1.1 ≠ e2.1 → e1.2 ≠ e2.2 ∧ e1.2 ≠ 0 := by
  have hinit : BindInv initCore [] := by
    refine ⟨by simp, ?_, by simp, by decide⟩
    intro mR r hr
    have : mapGet initCore mR r = 0 := by
      unfold mapGet getTbl initCore
      by_cases h : mR = 0
      · rw [if_pos h]
        rfl
      · rw [if_neg h]
        rfl
    rw [this] at hr
    exact absurd rfl hr
  have hfin := runOps_inv ops initCore [] hinit
  rw [List.append_nil] at hfin
  intro i j e1 e2 h1 h2 hne
  exact ⟨hfin.2.2.1 e1 (List.getElem?_mem h1) e2 (List.getElem?_mem h2) hne,
    (hfin.1 e1 (List.getElem?_mem h1)).1⟩

/-- C2 witness: binding two distinct nodes into the live map yields the
log entries id 1 and id 2, and the theorem separates them. -/
theorem claim_C2_witness :
    (runOpsLog initCore [SessionOp.bindOp 1 0, SessionOp.bindOp 2 0]).2[0]? =
      some ((0, 1), 1) ∧
    (runOpsLog initCore [SessionOp.bindOp 1 0, SessionOp.bindOp 2 0]).2[1]? =
      some ((0, 2), 2) ∧
    (1 : Nat) ≠ 2 := by
  have h1 : (runOpsLog initCore [SessionOp.bindOp 1 0, SessionOp.bindOp 2 0]).2[0]? =
      some ((0, 1), 1) := by decide
  have h2 : (runOpsLog initCore [SessionOp.bindOp 1 0, SessionOp.bindOp 2 0]).2[1]? =
      some ((0, 2), 2) := by decide
  exact ⟨h1, h2,
    (claim_C2_global_id_uniqueness [SessionOp.bindOp 1 0, SessionOp.bindOp 2 0]
      0 1 ((0, 1), 1) ((0, 2), 2) h1 h2 (by decide)).1⟩

end InspectorDOM

namespace InspectorDOM


end InspectorDOM

namespace InspectorDOM


end InspectorDOM

namespace InspectorDOM

theorem docOKTree_parts_children {r : Nat} {k : NodeKind} {hh f : Bool}
    {nm ln v : List Char} {a : List (List Char × List Char)}
    {cd : Option DomTree} {ch : List DomTree}
    (h : docOKTree (.node r k hh f nm ln v a cd ch) = true) :
    docOKList ch = true := by
  cases cd with
  | none =>
    simp only [docOKTree] at h
    exact h
  | some d =>
    simp only [docOKTree, Bool.and_eq_true] at h
    exact h.2

theorem docOKTree_parts_doc {r : Nat} {k : NodeKind} {hh f : Bool}
    {nm ln v : List Char} {a : List (List Char × List Char)}
    {d : DomTree} {ch : List DomTree}
    (h : docOKTree (.node r k hh f nm ln v a (some d) ch) = true) :
    d.children.all (fun x => !(x.kind = NodeKind.text)) = true ∧
    docOKTree d = true := by
  simp only [docOKTree, Bool.and_eq_true] at h
  exact h.1

theorem docOKList_mem : ∀ {l : List DomTree} {t : DomTree},
    docOKList l = true → t ∈ l → docOKTree t = true := by
  intro l
  induction l with
  | nil =>
    intro t _ ht
    cases ht
  | cons x xs ih =>
    intro t hl ht
    rw [docOKList] at hl
    obtain ⟨h1, h2⟩ := Bool.and_eq_true_iff.mp hl
    rcases List.mem_cons.mp ht with rfl | ht2
    · exact h1
    · exact ih h2 ht2

theorem docOKTree_children {d : DomTree} (h : docOKTree d = true) :
    docOKList d.children = true := by
  cases d with
  | node r k hh f nm ln v a cd ch =>
    exact docOKTree_parts_children h

theorem visChildren_fo_some_mem {n d t : DomTree} (hf : n.frameOwner = true)
    (hcd : n.contentDoc = some d) (ht : t ∈ visChildren n) : t ∈ d.children := by
  rw [visChildren_fo_some hf hcd] at ht
  cases hdc : d.children with
  | nil =>
    rw [hdc] at ht
    have ht2 : t ∈ ([] : List DomTree) := ht
    cases ht2
  | cons x xs =>
    rw [hdc] at ht
    have ht2 : t ∈ x :: xs.filter (fun u => !isWs u) := ht
    rcases List.mem_cons.mp ht2 with rfl | htf
    · exact List.mem_cons_self _ _
    · exact List.mem_cons_of_mem _ (List.mem_filter.mp htf).1

/-- Under DOM well-formedness, every visible child is significant
(non-whitespace) and inherits well-formedness. -/
theorem docOK_visChildren {n t : DomTree} (hd : docOKTree n = true)
    (ht : t ∈ visChildren n) : docOKTree t = true ∧ isWs t = false := by
  cases n with
  | node r k hh f nm ln v a cd ch =>
    have hch := docOKTree_parts_children hd
    by_cases hf : f = true
    · cases cd with
      | none =>
        rw [visChildren_fo_none (by simpa [DomTree.frameOwner] using hf)
          (by simp [DomTree.contentDoc])] at ht
        simp only [DomTree.children] at ht
        obtain ⟨htm, htw⟩ := List.mem_filter.mp ht
        exact ⟨docOKList_mem hch htm, by simpa using htw⟩
      | some d =>
        obtain ⟨hall, hdok⟩ := docOKTree_parts_doc hd
        have htm : t ∈ d.children := visChildren_fo_some_mem
          (by simpa [DomTree.frameOwner] using hf)
          (rfl : (DomTree.node r k hh f nm ln v a (some d) ch).contentDoc = some d) ht
        have hx := List.all_eq_true.mp hall t htm
        refine ⟨docOKList_mem (docOKTree_children hdok) htm, ?_⟩
        unfold isWs
        simp only [Bool.not_eq_true', decide_eq_false_iff_not] at hx
        simp [hx]
    · rw [visChildren_not_fo (by simpa [DomTree.frameOwner] using hf)] at ht
      simp only [DomTree.children] at ht
      obtain ⟨htm, htw⟩ := List.mem_filter.mp ht
      exact ⟨docOKList_mem hch htm, by simpa using htw⟩

end InspectorDOM

namespace InspectorDOM

theorem wsRefsList_mono {l : List DomTree}
    (H : ∀ t ∈ l, ∀ r, r ∈ wsRefs t → r ∈ treeRefs t) :
    ∀ r, r ∈ wsRefsList l → r ∈ treeRefsList l := by
  induction l with
  | nil =>
    intro r hr
    rw [wsRefsList] at hr
    cases hr
  | cons t ts ih =>
    intro r hr
    rw [wsRefsList] at hr
    rw [treeRefsList]
    rcases List.mem_append.mp hr with h | h
    · exact List.mem_append_left _ (H t (List.mem_cons_self _ _) r h)
    · exact List.mem_append_right _
        (ih (fun x hx => H x (List.mem_cons_of_mem _ hx)) r h)

theorem nonWsRefsList_mono {l : List DomTree}
    (H : ∀ t ∈ l, ∀ r, r ∈ nonWsRefs t → r ∈ treeRefs t) :
    ∀ r, r ∈ nonWsRefsList l → r ∈ treeRefsList l := by
  induction l with
  | nil =>
    intro r hr
    rw [nonWsRefsList] at hr
    cases hr
  | cons t ts ih =>
    intro r hr
    rw [nonWsRefsList] at hr
    rw [treeRefsList]
    rcases List.mem_append.mp hr with h | h
    · exact List.mem_append_left _ (H t (List.mem_cons_self _ _) r h)
    · exact List.mem_append_right _
        (ih (fun x hx => H x (List.mem_cons_of_mem _ hx)) r h)

theorem wsRefs_sub_treeRefs : ∀ (n : DomTree), ∀ r, r ∈ wsRefs n → r ∈ treeRefs n := by
  refine domtree_strong_induction _ ?_
  intro n IH
  cases n with
  | node r0 k hh f nm ln v a cd ch =>
    intro r hr
    rw [wsRefs] at hr
    rw [treeRefs]
    rcases List.mem_append.mp hr with h | h
    · by_cases hws : isWs (DomTree.node r0 k hh f nm ln v a cd ch) = true
      · rw [if_pos hws] at h
        rcases List.mem_cons.mp h with rfl | h2
        · exact List.mem_cons_self _ _
        · cases h2
      · rw [if_neg hws] at h
        cases h
    · refine List.mem_cons_of_mem _ ?_
      rcases List.mem_append.mp h with h2 | h2
      · cases cd with
        | none =>
          rw [wsRefsOpt] at h2
          cases h2
        | some d =>
          rw [wsRefsOpt] at h2
          rw [treeRefsOpt]
          refine List.mem_append_left _ ?_
          have hlt : d.sz < (DomTree.node r0 k hh f nm ln v a (some d) ch).sz := by
            simp only [DomTree.sz, szOpt]
            omega
          exact IH d hlt r h2
      · refine List.mem_append_right _ ?_
        refine wsRefsList_mono ?_ r h2
        intro t ht rr hrr
        have hlt : t.sz < (DomTree.node r0 k hh f nm ln v a cd ch).sz := by
          have h1 := sz_mem_le ht
          have h2 := szList_children_lt (DomTree.node r0 k hh f nm ln v a cd ch)
          simp only [DomTree.children] at h2
          omega
        exact IH t hlt rr hrr

theorem nonWsRefs_sub_treeRefs : ∀ (n : DomTree), ∀ r, r ∈ nonWsRefs n → r ∈ treeRefs n := by
  refine domtree_strong_induction _ ?_
  intro n IH
  cases n with
  | node r0 k hh f nm ln v a cd ch =>
    intro r hr
    rw [nonWsRefs] at hr
    rw [treeRefs]
    rcases List.mem_append.mp hr with h | h
    · by_cases hws : isWs (DomTree.node r0 k hh f nm ln v a cd ch) = true
      · rw [if_pos hws] at h
        cases h
      · rw [if_neg hws] at h
        rcases List.mem_cons.mp h with rfl | h2
        · exact List.mem_cons_self _ _
        · cases h2
    · refine List.mem_cons_of_mem _ ?_
      rcases List.mem_append.mp h with h2 | h2
      · cases cd with
        | none =>
          rw [nonWsRefsOpt] at h2
          cases h2
        | some d =>
          rw [nonWsRefsOpt] at h2
          rw [treeRefsOpt]
          refine List.mem_append_left _ ?_
          have hlt : d.sz < (DomTree.node r0 k hh f nm ln v a (some d) ch).sz := by
            simp only [DomTree.sz, szOpt]
            omega
          exact IH d hlt r h2
      · refine List.mem_append_right _ ?_
        refine nonWsRefsList_mono ?_ r h2
        intro t ht rr hrr
        have hlt : t.sz < (DomTree.node r0 k hh f nm ln v a cd ch).sz := by
          have h1 := sz_mem_le ht
          have h2 := szList_children_lt (DomTree.node r0 k hh f nm ln v a cd ch)
          simp only [DomTree.children] at h2
          omega
        exact IH t hlt rr hrr

theorem wsRefsList_sub (l : List DomTree) :
    ∀ r, r ∈ wsRefsList l → r ∈ treeRefsList l :=
  wsRefsList_mono (fun t _ => wsRefs_sub_treeRefs t)

theorem nonWsRefsList_sub (l : List DomTree) :
    ∀ r, r ∈ nonWsRefsList l → r ∈ treeRefsList l :=
  nonWsRefsList_mono (fun t _ => nonWsRefs_sub_treeRefs t)

theorem wsRefsOpt_sub (o : Option DomTree) :
    ∀ r, r ∈ wsRefsOpt o → r ∈ treeRefsOpt o := by
  cases o with
  | none =>
    intro r hr
    rw [wsRefsOpt] at hr
    cases hr
  | some d =>
    intro r hr
    rw [wsRefsOpt] at hr
    rw [treeRefsOpt]
    exact wsRefs_sub_treeRefs d r hr

theorem nonWsRefsOpt_sub (o : Option DomTree) :
    ∀ r, r ∈ nonWsRefsOpt o → r ∈ treeRefsOpt o := by
  cases o with
  | none =>
    intro r hr
    rw [nonWsRefsOpt] at hr
    cases hr
  | some d =>
    intro r hr
    rw [nonWsRefsOpt] at hr
    rw [treeRefsOpt]
    exact nonWsRefs_sub_treeRefs d r hr

theorem ws_non_disjoint_list {l : List DomTree}
    (H : ∀ t ∈ l, (treeRefs t).Nodup → ∀ r, r ∈ wsRefs t → r ∉ nonWsRefs t)
    (hnd : (treeRefsList l).Nodup) :
    ∀ r, r ∈ wsRefsList l → r ∉ nonWsRefsList l := by
  induction l with
  | nil =>
    intro r hr
    rw [wsRefsList] at hr
    cases hr
  | cons t ts ih =>
    intro r hr hr2
    rw [wsRefsList] at hr
    rw [nonWsRefsList] at hr2
    rw [treeRefsList] at hnd
    have hdis := List.disjoint_of_nodup_append hnd
    rcases List.mem_append.mp hr with h | h <;> rcases List.mem_append.mp hr2 with g | g
    · exact H t (List.mem_cons_self _ _) (hnd.of_append_left) r h g
    · exact hdis (wsRefs_sub_treeRefs t r h) (nonWsRefsList_sub ts r g)
    · exact hdis (nonWsRefs_sub_treeRefs t r g) (wsRefsList_sub ts r h)
    · exact ih (fun x hx => H x (List.mem_cons_of_mem _ hx)) hnd.of_append_right r h g

/-- With globally unique references, a reference is never both that of a
whitespace node and that of a significant node. -/
theorem ws_non_disjoint : ∀ (n : DomTree), (treeRefs n).Nodup →
    ∀ r, r ∈ wsRefs n → r ∉ nonWsRefs n := by
  refine domtree_strong_induction _ ?_
  intro n IH
  cases n with
  | node r0 k hh f nm ln v a cd ch =>
    intro hnd r hr hr2
    rw [wsRefs] at hr
    rw [nonWsRefs] at hr2
    rw [treeRefs] at hnd
    have hr0 : r0 ∉ treeRefsOpt cd ++ treeRefsList ch := (List.nodup_cons.mp hnd).1
    have hnd2 := (List.nodup_cons.mp hnd).2
    have hdis := List.disjoint_of_nodup_append hnd2
    rcases List.mem_append.mp hr with h | h <;> rcases List.mem_append.mp hr2 with g | g
    · by_cases hws : isWs (DomTree.node r0 k hh f nm ln v a cd ch) = true
      · rw [if_pos hws] at g
        cases g
      · rw [if_neg hws] at h
        cases h
    · by_cases hws : isWs (DomTree.node r0 k hh f nm ln v a cd ch) = true
      · rw [if_pos hws] at h
        rcases List.mem_cons.mp h with rfl | h2
        · rcases List.mem_append.mp g with g2 | g2
          · exact hr0 (List.mem_append_left _ (nonWsRefsOpt_sub cd r g2))
          · exact hr0 (List.mem_append_right _ (nonWsRefsList_sub ch r g2))
        · cases h2
      · rw [if_neg hws] at h
        cases h
    · by_cases hws : isWs (DomTree.node r0 k hh f nm ln v a cd ch) = true
      · rw [if_pos hws] at g
        cases g
      · rw [if_neg hws] at g
        rcases List.mem_cons.mp g with rfl | g2
        · rcases List.mem_append.mp h with h2 | h2
          · exact hr0 (List.mem_append_left _ (wsRefsOpt_sub cd r h2))
          · exact hr0 (List.mem_append_right _ (wsRefsList_sub ch r h2))
        · cases g2
    · rcases List.mem_append.mp h with h2 | h2 <;> rcases List.mem_append.mp g with g2 | g2
      · cases cd with
        | none =>
          rw [wsRefsOpt] at h2
          cases h2
        | some d =>
          rw [wsRefsOpt] at h2
          rw [nonWsRefsOpt] at g2
          have hlt : d.sz < (DomTree.node r0 k hh f nm ln v a (some d) ch).sz := by
            simp only [DomTree.sz, szOpt]
            omega
          have hndd : (treeRefs d).Nodup := by
            have := hnd2.of_append_left
            rwa [treeRefsOpt] at this
          exact IH d hlt hndd r h2 g2
      · exact hdis (wsRefsOpt_sub cd r h2) (nonWsRefsList_sub ch r g2)
      · exact hdis (nonWsRefsOpt_sub cd r g2) (wsRefsList_sub ch r h2)
      · refine ws_non_disjoint_list ?_ hnd2.of_append_right r h2 g2
        intro t ht htnd rr hrr
        have hlt : t.sz < (DomTree.node r0 k hh f nm ln v a cd ch).sz := by
          have h1 := sz_mem_le ht
          have h2 := szList_children_lt (DomTree.node r0 k hh f nm ln v a cd ch)
          simp only [DomTree.children] at h2
          omega
        exact IH t hlt htnd rr hrr

end InspectorDOM

namespace InspectorDOM

theorem mapGet_touchScope (c : Core) (n : DomTree) (mR r : Nat) :
    mapGet (touchScope c n) mR r = mapGet c mR r := by
  unfold mapGet
  rw [getTbl_touchScope]

theorem nonWsRefsList_of_mem {t : DomTree} {l : List DomTree} (ht : t ∈ l) :
    ∀ r, r ∈ nonWsRefs t → r ∈ nonWsRefsList l := by
  induction l with
  | nil => cases ht
  | cons x xs ih =>
    intro r hr
    rw [nonWsRefsList]
    rcases List.mem_cons.mp ht with rfl | ht2
    · exact List.mem_append_left _ hr
    · exact List.mem_append_right _ (ih ht2 r hr)

theorem nonWsRefs_of_child {d : DomTree} :
    ∀ r, r ∈ nonWsRefsList d.children → r ∈ nonWsRefs d := by
  cases d with
  | node r0 k hh f nm ln v a cd ch =>
    intro r hr
    rw [nonWsRefs]
    refine List.mem_append_right _ (List.mem_append_right _ ?_)
    simpa [DomTree.children] using hr

theorem visChildren_nonWs_sub {n t : DomTree} (ht : t ∈ visChildren n) :
    ∀ r, r ∈ nonWsRefs t → r ∈ nonWsRefs n := by
  cases n with
  | node r0 k hh f nm ln v a cd ch =>
    intro r hr
    by_cases hf : f = true
    · cases hcd : cd with
      | none =>
        rw [visChildren_fo_none (by simpa [DomTree.frameOwner] using hf)
          (by simp [DomTree.contentDoc, hcd])] at ht
        simp only [DomTree.children] at ht
        have htm := (List.mem_filter.mp ht).1
        rw [nonWsRefs]
        exact List.mem_append_right _
          (List.mem_append_right _ (nonWsRefsList_of_mem htm r hr))
      | some d =>
        have htm : t ∈ d.children := visChildren_fo_some_mem
          (by simpa [DomTree.frameOwner] using hf)
          (by simp [DomTree.contentDoc, hcd]) ht
        have h1 : r ∈ nonWsRefs d :=
          nonWsRefs_of_child r (nonWsRefsList_of_mem htm r hr)
        rw [nonWsRefs]
        subst hcd
        refine List.mem_append_right _ (List.mem_append_left _ ?_)
        rw [nonWsRefsOpt]
        exact h1
    · rw [visChildren_not_fo (by simpa [DomTree.frameOwner] using hf)] at ht
      simp only [DomTree.children] at ht
      have htm := (List.mem_filter.mp ht).1
      rw [nonWsRefs]
      exact List.mem_append_right _
        (List.mem_append_right _ (nonWsRefsList_of_mem htm r hr))

theorem nonWs_ref_mem {n : DomTree} (h : isWs n = false) : n.ref ∈ nonWsRefs n := by
  cases n with
  | node r0 k hh f nm ln v a cd ch =>
    rw [nonWsRefs]
    rw [if_neg (by simp [h])]
    simp [DomTree.ref]

/-- The builders never touch the binding of a reference outside the set of
significant (non-whitespace) references of the tree they serialize, in any
map. -/
theorem build_no_touch : ∀ (n : DomTree), docOKTree n = true →
    ((isWs n = false → ∀ (c : Core) depth mR mR2 r, r ∉ nonWsRefs n →
      mapGet (buildObjectForNode c n depth mR).2 mR2 r = mapGet c mR2 r) ∧
     (∀ (c : Core) depth mR mR2 r, r ∉ nonWsRefs n →
      mapGet (buildArrayForContainerChildren c n depth mR).2 mR2 r = mapGet c mR2 r)) := by
  have H : ∀ k n, n.sz ≤ k → docOKTree n = true →
      ((isWs n = false → ∀ (c : Core) depth mR mR2 r, r ∉ nonWsRefs n →
        mapGet (buildObjectForNode c n depth mR).2 mR2 r = mapGet c mR2 r) ∧
       (∀ (c : Core) depth mR mR2 r, r ∉ nonWsRefs n →
        mapGet (buildArrayForContainerChildren c n depth mR).2 mR2 r = mapGet c mR2 r)) := by
    intro k
    induction k with
    | zero =>
      intro n hn
      have := sz_pos n
      omega
    | succ k ih =>
      intro n hn hdoc
      have hlist : ∀ ts, (∀ t ∈ ts, t ∈ visChildren n) →
          ∀ (c : Core) depth mR mR2 r, r ∉ nonWsRefs n →
          mapGet (buildList c ts depth mR).2 mR2 r = mapGet c mR2 r := by
        intro ts
        induction ts with
        | nil =>
          intro _ c depth mR mR2 r _
          rw [buildList]
        | cons t rest ihl =>
          intro hts c depth mR mR2 r hr
          rw [buildList]
          have htv : t ∈ visChildren n := hts t (by simp)
          have hsz : t.sz < n.sz := sz_mem_visChildren_lt htv
          obtain ⟨hdt, hwt⟩ := docOK_visChildren hdoc htv
          have hrt : r ∉ nonWsRefs t := fun hx => hr (visChildren_nonWs_sub htv r hx)
          have h1 := (ih t (by omega) hdt).1 hwt c depth mR mR2 r hrt
          have h2 := ihl (fun x hx => hts x (by simp [hx]))
            (buildObjectForNode c t depth mR).2 depth mR mR2 r hr
          rw [h2, h1]
      have harr : ∀ (c : Core) depth mR mR2 r, r ∉ nonWsRefs n →
          mapGet (buildArrayForContainerChildren c n depth mR).2 mR2 r = mapGet c mR2 r := by
        intro c depth mR mR2 r hr
        rw [buildArrayForContainerChildren]
        by_cases hd : depth = 0
        · rw [if_pos hd]
          by_cases hcnt : (innerChildNodeCount c n).1 = 1
          · rw [if_pos hcnt]
            split
            next child hh =>
              by_cases hk : child.kind = NodeKind.text
              · rw [if_pos hk]
                have hcm : child ∈ visChildren n := head?_mem hh
                have hsz : child.sz < n.sz := sz_mem_visChildren_lt hcm
                obtain ⟨hdt, hwt⟩ := docOK_visChildren hdoc hcm
                have hrt : r ∉ nonWsRefs child :=
                  fun hx => hr (visChildren_nonWs_sub hcm r hx)
                have h1 := (ih child (by omega) hdt).1 hwt
                  (touchScope (innerChildNodeCount c n).2 n) 0 mR mR2 r hrt
                rw [h1, mapGet_touchScope]
                show mapGet (touchScope c n) mR2 r = mapGet c mR2 r
                rw [mapGet_touchScope]
              · rw [if_neg hk]
                show mapGet (touchScope (touchScope c n) n) mR2 r = mapGet c mR2 r
                rw [mapGet_touchScope, mapGet_touchScope]
            next hh =>
              show mapGet (touchScope (touchScope c n) n) mR2 r = mapGet c mR2 r
              rw [mapGet_touchScope, mapGet_touchScope]
          · rw [if_neg hcnt]
            show mapGet (touchScope c n) mR2 r = mapGet c mR2 r
            rw [mapGet_touchScope]
        · rw [if_neg hd]
          rw [hlist (visChildren n) (fun t ht => ht) _ _ mR mR2 r hr]
          rw [mapGet_touchScope]
      refine ⟨?_, harr⟩
      intro hws c depth mR mR2 r hr
      rw [buildObjectForNode]
      have hne : r ≠ n.ref := fun he => hr (he ▸ nonWs_ref_mem hws)
      have hpair : (mR2, r) ≠ (mR, n.ref) := fun he => hne (congrArg Prod.snd he)
      by_cases hck : containerKind n.kind = true
      · rw [if_pos hck]
        rw [harr _ depth mR mR2 r hr]
        show mapGet (touchScope (bind c n.ref mR).2 n) mR2 r = mapGet c mR2 r
        rw [mapGet_touchScope]
        exact bind_mapGet_other c n.ref mR r mR2 hpair
      · rw [if_neg hck]
        exact bind_mapGet_other c n.ref mR r mR2 hpair
  exact fun n => H n.sz n le_rfl

end InspectorDOM

namespace InspectorDOM

theorem cleanObj_none {o : NodeObj} (h : o.objChildren = none) : cleanObj o = true := by
  rw [cleanObj]
  split
  next => rfl
  next l h2 =>
    rw [h] at h2
    cases h2

theorem cleanObj_some {o : NodeObj} {l : List NodeObj} (h : o.objChildren = some l) :
    cleanObj o = cleanList l := by
  rw [cleanObj]
  split
  next h2 =>
    rw [h] at h2
    cases h2
  next l2 h2 =>
    rw [h] at h2
    cases h2
    rfl

theorem cleanList_nil : cleanList [] = true := by
  rw [cleanList]

theorem cleanList_cons (o : NodeObj) (os : List NodeObj) :
    cleanList (o :: os) = (!wsObj o && cleanObj o && cleanList os) := by
  rw [cleanList]

theorem buildObject_type_value (c : Core) (n : DomTree) (depth : Int) (mR : Nat) :
    (buildObjectForNode c n depth mR).1.objType = nodeTypeCode n.kind ∧
    (buildObjectForNode c n depth mR).1.objValue = (nodeFields n).2.2 := by
  rw [buildObjectForNode]
  by_cases h : containerKind n.kind = true
  · rw [if_pos h]
    exact ⟨rfl, rfl⟩
  · rw [if_neg h]
    exact ⟨rfl, rfl⟩

theorem buildObject_children (c : Core) (n : DomTree) (depth : Int) (mR : Nat) :
    (buildObjectForNode c n depth mR).1.objChildren = none ∨
    ∃ cA, (buildObjectForNode c n depth mR).1.objChildren =
      some (buildArrayForContainerChildren cA n depth mR).1 := by
  rw [buildObjectForNode]
  by_cases h : containerKind n.kind = true
  · rw [if_pos h]
    simp only [NodeObj.objChildren]
    split
    · right
      exact ⟨_, rfl⟩
    · left
      rfl
  · rw [if_neg h]
    left
    rfl

/-- The serialized object of a non-whitespace node never describes a
whitespace-only text node. -/
theorem buildObject_wsObj (c : Core) (n : DomTree) (depth : Int) (mR : Nat)
    (h : isWs n = false) : wsObj (buildObjectForNode c n depth mR).1 = false := by
  obtain ⟨ht, hv⟩ := buildObject_type_value c n depth mR
  unfold wsObj
  rw [ht, hv]
  cases hk : n.kind with
  | text =>
    have h2 : (stripWhiteSpace n.value).isEmpty = false := by
      unfold isWs at h
      rw [hk] at h
      simpa using h
    simp [nodeFields, hk, nodeTypeCode, h2]
  | element => simp [nodeFields, hk, nodeTypeCode]
  | attributeNode => simp [nodeFields, hk, nodeTypeCode]
  | comment => simp [nodeFields, hk, nodeTypeCode]
  | document => simp [nodeFields, hk, nodeTypeCode]
  | documentType => simp [nodeFields, hk, nodeTypeCode]
  | fragment => simp [nodeFields, hk, nodeTypeCode]

/-- Under DOM well-formedness, every children array the builders produce is
clean: it contains no whitespace-only text object at any nesting depth. -/
theorem build_clean : ∀ (n : DomTree), docOKTree n = true →
    ((∀ (c : Core) depth mR, cleanObj (buildObjectForNode c n depth mR).1 = true) ∧
     (∀ (c : Core) depth mR,
       cleanList (buildArrayForContainerChildren c n depth mR).1 = true)) := by
  have H : ∀ k n, n.sz ≤ k → docOKTree n = true →
      ((∀ (c : Core) depth mR, cleanObj (buildObjectForNode c n depth mR).1 = true) ∧
       (∀ (c : Core) depth mR,
         cleanList (buildArrayForContainerChildren c n depth mR).1 = true)) := by
    intro k
    induction k with
    | zero =>
      intro n hn
      have := sz_pos n
      omega
    | succ k ih =>
      intro n hn hdoc
      have hlist : ∀ ts, (∀ t ∈ ts, t ∈ visChildren n) →
          ∀ (c : Core) depth mR, cleanList (buildList c ts depth mR).1 = true := by
        intro ts
        induction ts with
        | nil =>
          intro _ c depth mR
          rw [buildList]
          exact cleanList_nil
        | cons t rest ihl =>
          intro hts c depth mR
          rw [buildList]
          have htv : t ∈ visChildren n := hts t (by simp)
          have hsz : t.sz < n.sz := sz_mem_visChildren_lt htv
          obtain ⟨hdt, hwt⟩ := docOK_visChildren hdoc htv
          rw [cleanList_cons]
          have h1 := buildObject_wsObj c t depth mR hwt
          have h2 := (ih t (by omega) hdt).1 c depth mR
          have h3 := ihl (fun x hx => hts x (by simp [hx]))
            (buildObjectForNode c t depth mR).2 depth mR
          rw [h1, h2, h3]
          rfl
      have harr : ∀ (c : Core) depth mR,
          cleanList (buildArrayForContainerChildren c n depth mR).1 = true := by
        intro c depth mR
        rw [buildArrayForContainerChildren]
        by_cases hd : depth = 0
        · rw [if_pos hd]
          by_cases hcnt : (innerChildNodeCount c n).1 = 1
          · rw [if_pos hcnt]
            split
            next child hh =>
              by_cases hk : child.kind = NodeKind.text
              · rw [if_pos hk]
                have hcm : child ∈ visChildren n := head?_mem hh
                have hsz : child.sz < n.sz := sz_mem_visChildren_lt hcm
                obtain ⟨hdt, hwt⟩ := docOK_visChildren hdoc hcm
                show cleanList [(buildObjectForNode _ child 0 mR).1] = true
                rw [cleanList_cons]
                rw [buildObject_wsObj _ child 0 mR hwt]
                rw [(ih child (by omega) hdt).1 _ 0 mR, cleanList_nil]
                rfl
              · rw [if_neg hk]
                exact cleanList_nil
            next hh => exact cleanList_nil
          · rw [if_neg hcnt]
            exact cleanList_nil
        · rw [if_neg hd]
          exact hlist (visChildren n) (fun t ht => ht) _ _ mR
      refine ⟨?_, harr⟩
      intro c depth mR
      rcases buildObject_children c n depth mR with h | ⟨cA, h⟩
      · exact cleanObj_none h
      · rw [cleanObj_some h]
        exact harr cA depth mR
  exact fun n => H n.sz n le_rfl

end InspectorDOM

namespace InspectorDOM

/-- C6 (claim): whitespace invariance.  Under DOM well-formedness of content
documents and globally distinct node references, for a significant node every
visible child is significant, the serialized description and children array
contain no whitespace-only text object at any depth, and serialization leaves
the binding of every whitespace-only text node of the tree untouched in every
identity map — so such nodes are never assigned an identifier. -/
theorem claim_C6_whitespace (n : DomTree) (c : Core) (depth : Int) (mR : Nat)
    (hdoc : docOKTree n = true) (hws : isWs n = false)
    (hnd : (treeRefs n).Nodup) :
    (∀ t ∈ visChildren n, isWs t = false) ∧
    cleanObj (buildObjectForNode c n depth mR).1 = true ∧
    cleanList (buildArrayForContainerChildren c n depth mR).1 = true ∧
    (∀ r, r ∈ wsRefs n → ∀ mR2,
      mapGet (buildObjectForNode c n depth mR).2 mR2 r = mapGet c mR2 r ∧
      mapGet (buildArrayForContainerChildren c n depth mR).2 mR2 r
        = mapGet c mR2 r) := by
  refine ⟨fun t ht => (docOK_visChildren hdoc ht).2,
    (build_clean n hdoc).1 c depth mR,
    (build_clean n hdoc).2 c depth mR, ?_⟩
  intro r hr mR2
  have hnon : r ∉ nonWsRefs n := ws_non_disjoint n hnd r hr
  exact ⟨(build_no_touch n hdoc).1 hws c depth mR mR2 r hnon,
    (build_no_touch n hdoc).2 c depth mR mR2 r hnon⟩

/-- C6 witness: the claim applied to a body element with a whitespace text
child between two element children. -/
theorem claim_C6_witness :
    docOKTree bodyW = true ∧ isWs bodyW = false ∧ (treeRefs bodyW).Nodup ∧
    ((∀ t ∈ visChildren bodyW, isWs t = false) ∧
     cleanObj (buildObjectForNode initCore bodyW 1 0).1 = true ∧
     cleanList (buildArrayForContainerChildren initCore bodyW 1 0).1 = true ∧
     (∀ r, r ∈ wsRefs bodyW → ∀ mR2,
       mapGet (buildObjectForNode initCore bodyW 1 0).2 mR2 r
         = mapGet initCore mR2 r ∧
       mapGet (buildArrayForContainerChildren initCore bodyW 1 0).2 mR2 r
         = mapGet initCore mR2 r)) := by
  have hd : docOKTree bodyW = true := by
    simp [bodyW, divW, wsW, spanW, docOKTree, docOKList]
  have hw : isWs bodyW = false := by decide
  have hn : (treeRefs bodyW).Nodup := by
    simp [bodyW, divW, wsW, spanW, treeRefs, treeRefsOpt, treeRefsList]
  exact ⟨hd, hw, hn, claim_C6_whitespace bodyW initCore 1 0 hd hw hn⟩

end InspectorDOM

namespace InspectorDOM


end InspectorDOM

namespace InspectorDOM

theorem self_mem_treeRefs (n : DomTree) : n.ref ∈ treeRefs n := by
  cases n with
  | node r0 k hh f nm ln v a cd ch =>
    rw [treeRefs]
    simp [DomTree.ref]

theorem treeRefsList_of_mem {t : DomTree} {l : List DomTree} (ht : t ∈ l) :
    ∀ r, r ∈ treeRefs t → r ∈ treeRefsList l := by
  induction l with
  | nil => cases ht
  | cons x xs ih =>
    intro r hr
    rw [treeRefsList]
    rcases List.mem_cons.mp ht with rfl | ht2
    · exact List.mem_append_left _ hr
    · exact List.mem_append_right _ (ih ht2 r hr)

theorem treeRefs_of_child {d : DomTree} :
    ∀ r, r ∈ treeRefsList d.children → r ∈ treeRefs d := by
  cases d with
  | node r0 k hh f nm ln v a cd ch =>
    intro r hr
    rw [treeRefs]
    refine List.mem_cons_of_mem _ (List.mem_append_right _ ?_)
    simpa [DomTree.children] using hr

/-- Every reference of a visible child lies in the tail of the parent's
reference list (its content document and children blocks). -/
theorem visChildren_treeRefs_tail {r0 : Nat} {k : NodeKind} {hh f : Bool}
    {nm ln v : List Char} {a : List (List Char × List Char)}
    {cd : Option DomTree} {ch : List DomTree} {t : DomTree}
    (ht : t ∈ visChildren (DomTree.node r0 k hh f nm ln v a cd ch)) :
    ∀ r, r ∈ treeRefs t → r ∈ treeRefsOpt cd ++ treeRefsList ch := by
  intro r hr
  by_cases hf : f = true
  · cases hcd : cd with
    | none =>
      rw [visChildren_fo_none (by simpa [DomTree.frameOwner] using hf)
        (by simp [DomTree.contentDoc, hcd])] at ht
      simp only [DomTree.children] at ht
      have htm := (List.mem_filter.mp ht).1
      exact List.mem_append_right _ (treeRefsList_of_mem htm r hr)
    | some d =>
      have htm : t ∈ d.children := visChildren_fo_some_mem
        (by simpa [DomTree.frameOwner] using hf)
        (by simp [DomTree.contentDoc, hcd]) ht
      subst hcd
      refine List.mem_append_left _ ?_
      rw [treeRefsOpt]
      exact treeRefs_of_child r (treeRefsList_of_mem htm r hr)
  · rw [visChildren_not_fo (by simpa [DomTree.frameOwner] using hf)] at ht
    simp only [DomTree.children] at ht
    have htm := (List.mem_filter.mp ht).1
    exact List.mem_append_right _ (treeRefsList_of_mem htm r hr)

theorem visChildren_treeRefs_sub {n t : DomTree} (ht : t ∈ visChildren n) :
    ∀ r, r ∈ treeRefs t → r ∈ treeRefs n := by
  cases n with
  | node r0 k hh f nm ln v a cd ch =>
    intro r hr
    rw [treeRefs]
    exact List.mem_cons_of_mem _ (visChildren_treeRefs_tail ht r hr)

theorem visChildren_treeRefs_ne_root {n t : DomTree} (hnd : (treeRefs n).Nodup)
    (ht : t ∈ visChildren n) : ∀ r, r ∈ treeRefs t → r ≠ n.ref := by
  cases n with
  | node r0 k hh f nm ln v a cd ch =>
    intro r hr he
    rw [treeRefs] at hnd
    have h0 := (List.nodup_cons.mp hnd).1
    have h1 := visChildren_treeRefs_tail ht r hr
    rw [he] at h1
    exact h0 (by simpa [DomTree.ref] using h1)

theorem treeRefsList_nodup_mem {l : List DomTree} {t : DomTree}
    (hnd : (treeRefsList l).Nodup) (ht : t ∈ l) : (treeRefs t).Nodup := by
  induction l with
  | nil => cases ht
  | cons x xs ih =>
    rw [treeRefsList] at hnd
    rcases List.mem_cons.mp ht with rfl | ht2
    · exact hnd.of_append_left
    · exact ih hnd.of_append_right ht2

theorem treeRefsList_sublist {l' l : List DomTree} (h : l'.Sublist l) :
    (treeRefsList l').Sublist (treeRefsList l) := by
  induction h with
  | slnil => exact List.Sublist.refl _
  | cons a h2 ih =>
    rw [treeRefsList]
    exact ih.trans (List.sublist_append_right _ _)
  | cons₂ a h2 ih =>
    rw [treeRefsList, treeRefsList]
    exact List.Sublist.append_left ih _

theorem tree_nodup_tail {r0 : Nat} {k : NodeKind} {hh f : Bool}
    {nm ln v : List Char} {a : List (List Char × List Char)}
    {cd : Option DomTree} {ch : List DomTree}
    (hnd : (treeRefs (DomTree.node r0 k hh f nm ln v a cd ch)).Nodup) :
    (treeRefsOpt cd ++ treeRefsList ch).Nodup := by
  rw [treeRefs] at hnd
  exact (List.nodup_cons.mp hnd).2

/-- Global reference uniqueness descends to the visible children. -/
theorem vis_treeRefsList_nodup {n : DomTree} (hnd : (treeRefs n).Nodup) :
    (treeRefsList (visChildren n)).Nodup := by
  cases n with
  | node r0 k hh f nm ln v a cd ch =>
    have htail := tree_nodup_tail hnd
    by_cases hf : f = true
    · cases hcd : cd with
      | none =>
        rw [visChildren_fo_none (by simpa [DomTree.frameOwner] using hf)
          (by simp [DomTree.contentDoc, hcd])]
        simp only [DomTree.children]
        refine List.Nodup.sublist (treeRefsList_sublist (List.filter_sublist _)) ?_
        exact htail.of_append_right
      | some d =>
        subst hcd
        rw [visChildren_fo_some (by simpa [DomTree.frameOwner] using hf)
          (rfl : (DomTree.node r0 k hh f nm ln v a (some d) ch).contentDoc = some d)]
        have hd : (treeRefs d).Nodup := by
          have := htail.of_append_left
          rwa [treeRefsOpt] at this
        have hdc : (treeRefsList d.children).Nodup := by
          cases d with
          | node r1 k1 h1 f1 nm1 ln1 v1 a1 cd1 ch1 =>
            have := tree_nodup_tail hd
            simpa [DomTree.children] using this.of_append_right
        cases hdch : d.children with
        | nil => simp [treeRefsList]
        | cons x xs =>
          rw [hdch] at hdc
          refine List.Nodup.sublist (treeRefsList_sublist ?_) hdc
          exact List.Sublist.cons₂ x (List.filter_sublist _)
    · rw [visChildren_not_fo (by simpa [DomTree.frameOwner] using hf)]
      simp only [DomTree.children]
      refine List.Nodup.sublist (treeRefsList_sublist (List.filter_sublist _)) ?_
      exact htail.of_append_right

theorem injIds_subset {c : Core} {mR : Nat} {rs rs' : List Nat}
    (hsub : ∀ r ∈ rs', r ∈ rs) (h : injIds c mR rs) : injIds c mR rs' :=
  fun r1 h1 r2 h2 => h r1 (hsub r1 h1) r2 (hsub r2 h2)

theorem injIds_of_eq {c c' : Core} {mR : Nat} {rs : List Nat}
    (he : ∀ r ∈ rs, mapGet c' mR r = mapGet c mR r) (h : injIds c mR rs) :
    injIds c' mR rs := by
  intro r1 h1 r2 h2 hne heq
  rw [he r1 h1, he r2 h2] at heq
  rw [he r1 h1] at hne
  exact h r1 h1 r2 h2 hne heq

end InspectorDOM

namespace InspectorDOM

theorem treeRefsList_mem_split {l : List DomTree} {r : Nat}
    (h : r ∈ treeRefsList l) : ∃ t ∈ l, r ∈ treeRefs t := by
  induction l with
  | nil =>
    rw [treeRefsList] at h
    cases h
  | cons x xs ih =>
    rw [treeRefsList] at h
    rcases List.mem_append.mp h with h2 | h2
    · exact ⟨x, List.mem_cons_self _ _, h2⟩
    · obtain ⟨t, ht, hr⟩ := ih h2
      exact ⟨t, List.mem_cons_of_mem _ ht, hr⟩

/-- Every pair `unbind` would remove names a reference of the tree together
with its nonzero id in the map. -/
theorem reach_pairs : ∀ (n : DomTree) (c : Core) (mR : Nat) (p : Nat × Nat),
    p ∈ reach c mR n →
    p.1 ∈ treeRefs n ∧ p.2 = mapGet c mR p.1 ∧ p.2 ≠ 0 := by
  have H : ∀ k (n : DomTree), n.sz ≤ k → ∀ (c : Core) (mR : Nat) (p : Nat × Nat),
      p ∈ reach c mR n →
      p.1 ∈ treeRefs n ∧ p.2 = mapGet c mR p.1 ∧ p.2 ≠ 0 := by
    intro k
    induction k with
    | zero =>
      intro n hn
      have := sz_pos n
      omega
    | succ k ih =>
      intro n hn c mR p hp
      have hlist : ∀ ts, (∀ t ∈ ts, t.sz < n.sz) → ∀ q, q ∈ reachList c mR ts →
          q.1 ∈ treeRefsList ts ∧ q.2 = mapGet c mR q.1 ∧ q.2 ≠ 0 := by
        intro ts
        induction ts with
        | nil =>
          intro _ q hq
          rw [reachList] at hq
          cases hq
        | cons t rest ihl =>
          intro hts q hq
          rw [reachList] at hq
          rw [treeRefsList]
          rcases List.mem_append.mp hq with h2 | h2
          · have := ih t (by have := hts t (by simp); omega) c mR q h2
            exact ⟨List.mem_append_left _ this.1, this.2⟩
          · have := ihl (fun x hx => hts x (by simp [hx])) q h2
            exact ⟨List.mem_append_right _ this.1, this.2⟩
      rw [reach] at hp
      by_cases h0 : mapGet c mR n.ref = 0
      · rw [if_pos h0] at hp
        cases hp
      · rw [if_neg h0] at hp
        by_cases hm : mapGet c mR n.ref ∈ c.childrenRequested
        · rw [if_pos hm] at hp
          rcases List.mem_cons.mp hp with rfl | hp2
          · exact ⟨self_mem_treeRefs n, rfl, h0⟩
          · have := hlist (visChildren n) (fun t ht => sz_mem_visChildren_lt ht) p hp2
            obtain ⟨t, htv, hrt⟩ := treeRefsList_mem_split this.1
            exact ⟨visChildren_treeRefs_sub htv p.1 hrt, this.2⟩
        · rw [if_neg hm] at hp
          rcases List.mem_cons.mp hp with rfl | hp2
          · exact ⟨self_mem_treeRefs n, rfl, h0⟩
          · cases hp2
  exact fun n => H n.sz n le_rfl

theorem reachList_pairs {ts : List DomTree} {c : Core} {mR : Nat} {p : Nat × Nat}
    (hp : p ∈ reachList c mR ts) :
    p.1 ∈ treeRefsList ts ∧ p.2 = mapGet c mR p.1 ∧ p.2 ≠ 0 := by
  induction ts with
  | nil =>
    rw [reachList] at hp
    cases hp
  | cons t rest ih =>
    rw [reachList] at hp
    rw [treeRefsList]
    rcases List.mem_append.mp hp with h2 | h2
    · have := reach_pairs t c mR p h2
      exact ⟨List.mem_append_left _ this.1, this.2⟩
    · have := ih h2
      exact ⟨List.mem_append_right _ this.1, this.2⟩

/-- The removal set only depends on the map entries and disclosure flags of
the tree's own references and ids. -/
theorem reach_congr : ∀ (n : DomTree) (c c' : Core) (mR : Nat),
    (∀ r ∈ treeRefs n, mapGet c' mR r = mapGet c mR r) →
    (∀ r ∈ treeRefs n, mapGet c mR r ≠ 0 →
      (mapGet c mR r ∈ c'.childrenRequested ↔ mapGet c mR r ∈ c.childrenRequested)) →
    reach c' mR n = reach c mR n := by
  have H : ∀ k (n : DomTree), n.sz ≤ k → ∀ (c c' : Core) (mR : Nat),
      (∀ r ∈ treeRefs n, mapGet c' mR r = mapGet c mR r) →
      (∀ r ∈ treeRefs n, mapGet c mR r ≠ 0 →
        (mapGet c mR r ∈ c'.childrenRequested ↔ mapGet c mR r ∈ c.childrenRequested)) →
      reach c' mR n = reach c mR n := by
    intro k
    induction k with
    | zero =>
      intro n hn
      have := sz_pos n
      omega
    | succ k ih =>
      intro n hn c c' mR h1 h2
      have hlist : ∀ ts, (∀ t ∈ ts, t.sz < n.sz ∧ t ∈ visChildren n) →
          reachList c' mR ts = reachList c mR ts := by
        intro ts
        induction ts with
        | nil =>
          intro _
          rw [reachList, reachList]
        | cons t rest ihl =>
          intro hts
          rw [reachList]
          conv_rhs => rw [reachList]
          obtain ⟨hsz, htv⟩ := hts t (by simp)
          have g1 : ∀ r ∈ treeRefs t, mapGet c' mR r = mapGet c mR r :=
            fun r hr => h1 r (visChildren_treeRefs_sub htv r hr)
          have g2 : ∀ r ∈ treeRefs t, mapGet c mR r ≠ 0 →
              (mapGet c mR r ∈ c'.childrenRequested ↔ mapGet c mR r ∈ c.childrenRequested) :=
            fun r hr => h2 r (visChildren_treeRefs_sub htv r hr)
          rw [ih t (by omega) c c' mR g1 g2,
            ihl (fun x hx => hts x (by simp [hx]))]
      have he := h1 n.ref (self_mem_treeRefs n)
      rw [reach]
      conv_rhs => rw [reach]
      rw [he]
      by_cases h0 : mapGet c mR n.ref = 0
      · rw [if_pos h0, if_pos h0]
      · rw [if_neg h0, if_neg h0]
        have hmem := h2 n.ref (self_mem_treeRefs n) h0
        by_cases hm : mapGet c mR n.ref ∈ c.childrenRequested
        · rw [if_pos (hmem.mpr hm), if_pos hm]
          rw [hlist (visChildren n)
            (fun t ht => ⟨sz_mem_visChildren_lt ht, ht⟩)]
        · rw [if_neg (fun hx => hm (hmem.mp hx)), if_neg hm]
  exact fun n => H n.sz n le_rfl

theorem reachList_congr {ts : List DomTree} {c c' : Core} {mR : Nat}
    (h1 : ∀ r ∈ treeRefsList ts, mapGet c' mR r = mapGet c mR r)
    (h2 : ∀ r ∈ treeRefsList ts, mapGet c mR r ≠ 0 →
      (mapGet c mR r ∈ c'.childrenRequested ↔ mapGet c mR r ∈ c.childrenRequested)) :
    reachList c' mR ts = reachList c mR ts := by
  induction ts with
  | nil =>
    rw [reachList, reachList]
  | cons t rest ih =>
    rw [reachList]
    conv_rhs => rw [reachList]
    rw [reach_congr t c c' mR
      (fun r hr => h1 r (by rw [treeRefsList]; exact List.mem_append_left _ hr))
      (fun r hr => h2 r (by rw [treeRefsList]; exact List.mem_append_left _ hr))]
    rw [ih
      (fun r hr => h1 r (by rw [treeRefsList]; exact List.mem_append_right _ hr))
      (fun r hr => h2 r (by rw [treeRefsList]; exact List.mem_append_right _ hr))]

end InspectorDOM

namespace InspectorDOM

theorem mapGet_unbindRemove_self (c : Core) (r i mR : Nat) (hv : validMapRef c mR) :
    mapGet (unbindRemove c r i mR) mR r = 0 := by
  unfold unbindRemove mapGet
  have hv2 : validMapRef { c with idToNode := aremove c.idToNode i } mR := hv
  rw [getTbl_setTbl_self _ _ _ hv2, aget_aremove_self]
  rfl

theorem mapGet_unbindRemove_ne (c : Core) (r i mR r' : Nat) (hne : r' ≠ r) :
    mapGet (unbindRemove c r i mR) mR r' = mapGet c mR r' := by
  unfold unbindRemove mapGet
  by_cases hv : validMapRef { c with idToNode := aremove c.idToNode i } mR
  · rw [getTbl_setTbl_self _ _ _ hv, getTbl_update_idToNode, aget_aremove_ne _ _ _ hne]
  · rw [getTbl_setTbl_invalid _ _ _ hv, getTbl_update_idToNode]

theorem mapGet_unbindRemove_other (c : Core) (r i mR mR' r' : Nat) (hne : mR' ≠ mR) :
    mapGet (unbindRemove c r i mR) mR' r' = mapGet c mR' r' := by
  unfold unbindRemove mapGet
  rw [getTbl_setTbl_ne _ _ _ _ hne, getTbl_update_idToNode]

theorem mapGet_clearDisclosure (c : Core) (i mR r : Nat) :
    mapGet (clearDisclosure c i) mR r = mapGet c mR r := by
  unfold mapGet
  rw [getTbl_clearDisclosure]

theorem clearDisclosure_mem (c : Core) (i j : Nat) :
    j ∈ (clearDisclosure c i).childrenRequested ↔
      j ∈ c.childrenRequested ∧ j ≠ i := by
  unfold clearDisclosure
  simp [List.mem_filter]

theorem clearDisclosure_idToNode (c : Core) (i : Nat) :
    (clearDisclosure c i).idToNode = c.idToNode := rfl

theorem validMapRef_unbind (c : Core) (n : DomTree) (mR : Nat)
    (hv : validMapRef c mR) : validMapRef (unbind c n mR) mR := by
  unfold validMapRef at hv ⊢
  rwa [(unbind_frame.1 n c mR).2.2.2.2]

end InspectorDOM

namespace InspectorDOM

/-- Exact effect of `unbind` relative to the state at the call, under
globally distinct references and injective nonzero ids: the pairs of
`reach` are exactly what disappears from the map, the global index and the
disclosure set; everything else, and every other map, is untouched. -/
theorem unbind_reach : ∀ (n : DomTree) (c : Core) (mR : Nat),
    validMapRef c mR → (treeRefs n).Nodup → injIds c mR (treeRefs n) →
    ((∀ r, (∀ i, (r, i) ∉ reach c mR n) →
        mapGet (unbind c n mR) mR r = mapGet c mR r) ∧
     (∀ r i, (r, i) ∈ reach c mR n → mapGet (unbind c n mR) mR r = 0) ∧
     (∀ j, (∀ r i, (r, i) ∈ reach c mR n → j ≠ i) →
        aget (unbind c n mR).idToNode j = aget c.idToNode j ∧
        (j ∈ (unbind c n mR).childrenRequested ↔ j ∈ c.childrenRequested)) ∧
     (∀ r i, (r, i) ∈ reach c mR n →
        aget (unbind c n mR).idToNode i = none ∧
        i ∉ (unbind c n mR).childrenRequested) ∧
     (∀ mR' r, mR' ≠ mR → mapGet (unbind c n mR) mR' r = mapGet c mR' r)) := by
  have H : ∀ k (n : DomTree), n.sz ≤ k → ∀ (c : Core) (mR : Nat),
      validMapRef c mR → (treeRefs n).Nodup → injIds c mR (treeRefs n) →
      ((∀ r, (∀ i, (r, i) ∉ reach c mR n) →
          mapGet (unbind c n mR) mR r = mapGet c mR r) ∧
       (∀ r i, (r, i) ∈ reach c mR n → mapGet (unbind c n mR) mR r = 0) ∧
       (∀ j, (∀ r i, (r, i) ∈ reach c mR n → j ≠ i) →
          aget (unbind c n mR).idToNode j = aget c.idToNode j ∧
          (j ∈ (unbind c n mR).childrenRequested ↔ j ∈ c.childrenRequested)) ∧
       (∀ r i, (r, i) ∈ reach c mR n →
          aget (unbind c n mR).idToNode i = none ∧
          i ∉ (unbind c n mR).childrenRequested) ∧
       (∀ mR' r, mR' ≠ mR → mapGet (unbind c n mR) mR' r = mapGet c mR' r)) := by
    intro k
    induction k with
    | zero =>
      intro n hn
      have := sz_pos n
      omega
    | succ k ih =>
      intro n hn c mR hv hnd hinj
      have hlist : ∀ ts, (∀ t ∈ ts, t.sz < n.sz) → ∀ (c : Core),
          validMapRef c mR → (treeRefsList ts).Nodup → injIds c mR (treeRefsList ts) →
          ((∀ r, (∀ i, (r, i) ∉ reachList c mR ts) →
              mapGet (unbindList c ts mR) mR r = mapGet c mR r) ∧
           (∀ r i, (r, i) ∈ reachList c mR ts → mapGet (unbindList c ts mR) mR r = 0) ∧
           (∀ j, (∀ r i, (r, i) ∈ reachList c mR ts → j ≠ i) →
              aget (unbindList c ts mR).idToNode j = aget c.idToNode j ∧
              (j ∈ (unbindList c ts mR).childrenRequested ↔ j ∈ c.childrenRequested)) ∧
           (∀ r i, (r, i) ∈ reachList c mR ts →
              aget (unbindList c ts mR).idToNode i = none ∧
              i ∉ (unbindList c ts mR).childrenRequested) ∧
           (∀ mR' r, mR' ≠ mR → mapGet (unbindList c ts mR) mR' r = mapGet c mR' r)) := by
        intro ts
        induction ts with
        | nil =>
          intro _ c hvc _ _
          rw [unbindList]
          refine ⟨fun r _ => rfl, ?_, fun j _ => ⟨rfl, Iff.rfl⟩, ?_, fun _ _ _ => rfl⟩
          · intro r i hri
            rw [reachList] at hri
            cases hri
          · intro r i hri
            rw [reachList] at hri
            cases hri
        | cons t rest ihl =>
          intro hts c hvc hndc hinjc
          rw [unbindList]
          rw [treeRefsList] at hndc hinjc
          have hndT : (treeRefs t).Nodup := hndc.of_append_left
          have hndR : (treeRefsList rest).Nodup := hndc.of_append_right
          have hdisj := List.disjoint_of_nodup_append hndc
          have hT := ih t (by have := hts t (by simp); omega) c mR hvc hndT
            (injIds_subset (fun r hr => List.mem_append_left _ hr) hinjc)
          have hv1 : validMapRef (unbind c t mR) mR := validMapRef_unbind c t mR hvc
          have hTrefs : ∀ q : Nat × Nat, q ∈ reach c mR t → q.1 ∈ treeRefs t ∧
              q.2 = mapGet c mR q.1 ∧ q.2 ≠ 0 := fun q hq => reach_pairs t c mR q hq
          have hRrefs : ∀ q : Nat × Nat, q ∈ reachList c mR rest →
              q.1 ∈ treeRefsList rest ∧ q.2 = mapGet c mR q.1 ∧ q.2 ≠ 0 :=
            fun q hq => reachList_pairs hq
          have hmrest : ∀ r ∈ treeRefsList rest, mapGet (unbind c t mR) mR r = mapGet c mR r := by
            intro r hr
            refine hT.1 r ?_
            intro i hri
            exact hdisj (hTrefs (r, i) hri).1 hr
          have hcrest : ∀ r ∈ treeRefsList rest, mapGet c mR r ≠ 0 →
              (mapGet c mR r ∈ (unbind c t mR).childrenRequested ↔
               mapGet c mR r ∈ c.childrenRequested) := by
            intro r hr hne
            refine (hT.2.2.1 (mapGet c mR r) ?_).2
            intro r' i' hri' he
            obtain ⟨hm', hv', hz'⟩ := hTrefs (r', i') hri'
            have : r = r' := hinjc r (List.mem_append_right _ hr)
              r' (List.mem_append_left _ hm') hne (by rw [he]; exact hv')
            exact hdisj (this ▸ hm') hr
          have hR : reachList (unbind c t mR) mR rest = reachList c mR rest :=
            reachList_congr hmrest hcrest
          have hrest := ihl (fun x hx => hts x (by simp [hx])) (unbind c t mR) hv1
            hndR (injIds_of_eq hmrest (injIds_subset (fun r hr => List.mem_append_right _ hr) hinjc))
          have hreachEq : reachList c mR (t :: rest) = reach c mR t ++ reachList c mR rest := by
            rw [reachList]
          rw [hreachEq]
          refine ⟨?_, ?_, ?_, ?_, ?_⟩
          · intro r hri
            have h2 := hrest.1 r (by
              intro i hx
              rw [hR] at hx
              exact hri i (List.mem_append_right _ hx))
            rw [h2]
            exact hT.1 r (fun i hx => hri i (List.mem_append_left _ hx))
          · intro r i hri
            rcases List.mem_append.mp hri with hL | hRm
            · have hz := hT.2.1 r i hL
              have h2 := hrest.1 r (by
                intro i' hx
                rw [hR] at hx
                exact hdisj (hTrefs (r, i) hL).1 (hRrefs (r, i') hx).1)
              rw [h2, hz]
            · refine hrest.2.1 r i ?_
              rw [hR]
              exact hRm
          · intro j hj
            have h2 := hrest.2.2.1 j (by
              intro r i hx
              rw [hR] at hx
              exact hj r i (List.mem_append_right _ hx))
            have h1 := hT.2.2.1 j (fun r i hx => hj r i (List.mem_append_left _ hx))
            exact ⟨h2.1.trans h1.1, h2.2.trans h1.2⟩
          · intro r i hri
            rcases List.mem_append.mp hri with hL | hRm
            · obtain ⟨hm', hv', hz'⟩ := hTrefs (r, i) hL
              have h1 := hT.2.2.2.1 r i hL
              have h2 := hrest.2.2.1 i (by
                intro r' i' hx
                rw [hR] at hx
                obtain ⟨hm2, hv2, hz2⟩ := hRrefs (r', i') hx
                intro he
                have : r = r' := hinjc r (List.mem_append_left _ hm')
                  r' (List.mem_append_right _ hm2) (fun hz0 => hz' (hv'.trans hz0))
                  (hv'.symm.trans (he.trans hv2))
                exact hdisj (this ▸ hm') hm2)
              refine ⟨h2.1.trans h1.1, fun hx => h1.2 (h2.2.mp hx)⟩
            · refine hrest.2.2.2.1 r i ?_
              rw [hR]
              exact hRm
          · intro mR' r hne
            rw [hrest.2.2.2.2 mR' r hne, hT.2.2.2.2 mR' r hne]
      -- facts about the prologue
      have hps : mapGet (unbindPrelude c n) mR n.ref = mapGet c mR n.ref := by
        unfold mapGet
        rw [getTbl_unbindPrelude]
      have hc0m : ∀ mR' r, mapGet (unbindPrelude c n) mR' r = mapGet c mR' r := by
        intro mR' r
        unfold mapGet
        rw [getTbl_unbindPrelude]
      have hc0cr : (unbindPrelude c n).childrenRequested = c.childrenRequested :=
        (unbindPrelude_fields c n).2.2.2.2.2.1
      have hc0id : (unbindPrelude c n).idToNode = c.idToNode :=
        (unbindPrelude_fields c n).2.2.2.1
      have hv0 : validMapRef (unbindPrelude c n) mR := by
        unfold validMapRef at hv ⊢
        rwa [(unbindPrelude_fields c n).2.2.1]
      rw [unbind]
      simp only [hps]
      have hcr1 : (unbindRemove (unbindPrelude c n) n.ref (mapGet c mR n.ref) mR).childrenRequested
          = c.childrenRequested := by
        rw [(unbindRemove_fields _ _ _ _).2.2.1, hc0cr]
      simp only [hcr1]
      by_cases hb : mapGet c mR n.ref = 0
      · rw [if_pos hb]
        have hreach : reach c mR n = [] := by
          rw [reach, if_pos hb]
        rw [hreach]
        refine ⟨fun r _ => hc0m mR r, ?_, fun j _ => ⟨by rw [hc0id], by rw [hc0cr]⟩,
          ?_, fun mR' r _ => hc0m mR' r⟩
        · intro r i hri
          cases hri
        · intro r i hri
          cases hri
      · rw [if_neg hb]
        -- facts about the removal state
        have hc1self : mapGet (unbindRemove (unbindPrelude c n) n.ref (mapGet c mR n.ref) mR)
            mR n.ref = 0 := mapGet_unbindRemove_self _ _ _ _ hv0
        have hc1ne : ∀ r, r ≠ n.ref →
            mapGet (unbindRemove (unbindPrelude c n) n.ref (mapGet c mR n.ref) mR) mR r
              = mapGet c mR r := by
          intro r hr
          rw [mapGet_unbindRemove_ne _ _ _ _ _ hr, hc0m]
        have hc1other : ∀ mR' r, mR' ≠ mR →
            mapGet (unbindRemove (unbindPrelude c n) n.ref (mapGet c mR n.ref) mR) mR' r
              = mapGet c mR' r := by
          intro mR' r hne
          rw [mapGet_unbindRemove_other _ _ _ _ _ _ hne, hc0m]
        have hc1id : (unbindRemove (unbindPrelude c n) n.ref (mapGet c mR n.ref) mR).idToNode
            = aremove c.idToNode (mapGet c mR n.ref) := by
          rw [(unbindRemove_fields _ _ _ _).2.2.2.2.2.2.2.2, hc0id]
        by_cases hm : mapGet c mR n.ref ∈ c.childrenRequested
        · rw [if_pos hm]
          have hreach : reach c mR n =
              (n.ref, mapGet c mR n.ref) :: reachList c mR (visChildren n) := by
            rw [reach, if_neg hb, if_pos hm]
          rw [hreach]
          -- facts about the state entering the child loop
          have hc2ne : ∀ r, r ≠ n.ref →
              mapGet (touchScope (clearDisclosure
                (unbindRemove (unbindPrelude c n) n.ref (mapGet c mR n.ref) mR)
                (mapGet c mR n.ref)) n) mR r = mapGet c mR r := by
            intro r hr
            rw [mapGet_touchScope, mapGet_clearDisclosure, hc1ne r hr]
          have hc2self : mapGet (touchScope (clearDisclosure
                (unbindRemove (unbindPrelude c n) n.ref (mapGet c mR n.ref) mR)
                (mapGet c mR n.ref)) n) mR n.ref = 0 := by
            rw [mapGet_touchScope, mapGet_clearDisclosure]
            exact hc1self
          have hc2other : ∀ mR' r, mR' ≠ mR →
              mapGet (touchScope (clearDisclosure
                (unbindRemove (unbindPrelude c n) n.ref (mapGet c mR n.ref) mR)
                (mapGet c mR n.ref)) n) mR' r = mapGet c mR' r := by
            intro mR' r hne
            rw [mapGet_touchScope, mapGet_clearDisclosure, hc1other mR' r hne]
          have hc2cr : ∀ j, j ∈ (touchScope (clearDisclosure
                (unbindRemove (unbindPrelude c n) n.ref (mapGet c mR n.ref) mR)
                (mapGet c mR n.ref)) n).childrenRequested ↔
              (j ∈ c.childrenRequested ∧ j ≠ mapGet c mR n.ref) := by
            intro j
            rw [(touchScope_fields _ n).2.2.2.2.2.1, clearDisclosure_mem, hcr1]
          have hc2id : (touchScope (clearDisclosure
                (unbindRemove (unbindPrelude c n) n.ref (mapGet c mR n.ref) mR)
                (mapGet c mR n.ref)) n).idToNode
              = aremove c.idToNode (mapGet c mR n.ref) := by
            rw [(touchScope_fields _ n).2.2.2.1, clearDisclosure_idToNode, hc1id]
          have hv2 : validMapRef (touchScope (clearDisclosure
                (unbindRemove (unbindPrelude c n) n.ref (mapGet c mR n.ref) mR)
                (mapGet c mR n.ref)) n) mR := by
            unfold validMapRef at hv ⊢
            rw [(touchScope_fields _ n).2.2.1]
            show mR = 0 ∨ mR - 1 < (unbindRemove (unbindPrelude c n) n.ref
              (mapGet c mR n.ref) mR).danglingMaps.length
            rw [(unbindRemove_fields _ _ _ _).2.2.2.2.2.2.2.1,
              (unbindPrelude_fields c n).2.2.1]
            exact hv
          -- the visible children satisfy the hypotheses
          have hsubv : ∀ r ∈ treeRefsList (visChildren n), r ∈ treeRefs n ∧ r ≠ n.ref := by
            intro r hr
            obtain ⟨t, htv, hrt⟩ := treeRefsList_mem_split hr
            exact ⟨visChildren_treeRefs_sub htv r hrt,
              visChildren_treeRefs_ne_root hnd htv r hrt⟩
          have hndv : (treeRefsList (visChildren n)).Nodup := vis_treeRefsList_nodup hnd
          have hinjv : injIds c mR (treeRefsList (visChildren n)) :=
            injIds_subset (fun r hr => (hsubv r hr).1) hinj
          have hmv : ∀ r ∈ treeRefsList (visChildren n),
              mapGet (touchScope (clearDisclosure
                (unbindRemove (unbindPrelude c n) n.ref (mapGet c mR n.ref) mR)
                (mapGet c mR n.ref)) n) mR r = mapGet c mR r :=
            fun r hr => hc2ne r (hsubv r hr).2
          have hcrv : ∀ r ∈ treeRefsList (visChildren n), mapGet c mR r ≠ 0 →
              (mapGet c mR r ∈ (touchScope (clearDisclosure
                (unbindRemove (unbindPrelude c n) n.ref (mapGet c mR n.ref) mR)
                (mapGet c mR n.ref)) n).childrenRequested ↔
               mapGet c mR r ∈ c.childrenRequested) := by
            intro r hr hne
            rw [hc2cr]
            have : mapGet c mR r ≠ mapGet c mR n.ref := by
              intro he
              exact (hsubv r hr).2 (hinj r (hsubv r hr).1 n.ref (self_mem_treeRefs n) hne he)
            constructor
            · intro hx
              exact hx.1
            · intro hx
              exact ⟨hx, this⟩
          have hR : reachList (touchScope (clearDisclosure
                (unbindRemove (unbindPrelude c n) n.ref (mapGet c mR n.ref) mR)
                (mapGet c mR n.ref)) n) mR (visChildren n)
              = reachList c mR (visChildren n) :=
            reachList_congr hmv hcrv
          have happ := hlist (visChildren n) (fun t ht => sz_mem_visChildren_lt ht)
            (touchScope (clearDisclosure
              (unbindRemove (unbindPrelude c n) n.ref (mapGet c mR n.ref) mR)
              (mapGet c mR n.ref)) n) hv2 hndv (injIds_of_eq hmv hinjv)
          have hvis_ne : ∀ q : Nat × Nat, q ∈ reachList c mR (visChildren n) → q.1 ≠ n.ref :=
            fun q hq => (hsubv q.1 (reachList_pairs hq).1).2
          have hids_ne : ∀ q : Nat × Nat, q ∈ reachList c mR (visChildren n) →
              q.2 ≠ mapGet c mR n.ref := by
            intro q hq he
            obtain ⟨hm1, hv1, hz1⟩ := reachList_pairs hq
            exact (hsubv q.1 hm1).2 (hinj q.1 (hsubv q.1 hm1).1 n.ref (self_mem_treeRefs n)
              (hv1 ▸ hz1) (by rw [← hv1, he]))
          refine ⟨?_, ?_, ?_, ?_, ?_⟩
          · intro r hri
            have hrne : r ≠ n.ref := by
              intro he
              exact hri (mapGet c mR n.ref) (by rw [he]; exact List.mem_cons_self _ _)
            have h2 := happ.1 r (by
              intro i hx
              rw [hR] at hx
              exact hri i (List.mem_cons_of_mem _ hx))
            rw [h2]
            exact hc2ne r hrne
          · intro r i hri
            rcases List.mem_cons.mp hri with he | htl
            · have h1 : r = n.ref := congrArg Prod.fst he
              subst h1
              have h2 := happ.1 n.ref (by
                intro i' hx
                rw [hR] at hx
                exact hvis_ne (n.ref, i') hx rfl)
              rw [h2]
              exact hc2self
            · refine happ.2.1 r i ?_
              rw [hR]
              exact htl
          · intro j hj
            have hjid : j ≠ mapGet c mR n.ref :=
              hj n.ref (mapGet c mR n.ref) (List.mem_cons_self _ _)
            have h2 := happ.2.2.1 j (by
              intro r i hx
              rw [hR] at hx
              exact hj r i (List.mem_cons_of_mem _ hx))
            refine ⟨h2.1.trans ?_, h2.2.trans ?_⟩
            · rw [hc2id, aget_aremove_ne _ _ _ hjid]
            · rw [hc2cr j]
              constructor
              · intro hx
                exact hx.1
              · intro hx
                exact ⟨hx, hjid⟩
          · intro r i hri
            rcases List.mem_cons.mp hri with he | htl
            · have h1 : r = n.ref := congrArg Prod.fst he
              have h2 : i = mapGet c mR n.ref := congrArg Prod.snd he
              subst h1
              subst h2
              have h3 := happ.2.2.1 (mapGet c mR n.ref) (by
                intro r' i' hx
                rw [hR] at hx
                exact fun he2 => hids_ne (r', i') hx (he2.symm))
              refine ⟨h3.1.trans ?_, fun hx => ?_⟩
              · rw [hc2id, aget_aremove_self]
              · have := (h3.2.mp hx)
                rw [hc2cr] at this
                exact this.2 rfl
            · refine happ.2.2.2.1 r i ?_
              rw [hR]
              exact htl
          · intro mR' r hne
            rw [happ.2.2.2.2 mR' r hne, hc2other mR' r hne]
        · rw [if_neg hm]
          have hreach : reach c mR n = [(n.ref, mapGet c mR n.ref)] := by
            rw [reach, if_neg hb, if_neg hm]
          rw [hreach]
          refine ⟨?_, ?_, ?_, ?_, ?_⟩
          · intro r hri
            have hrne : r ≠ n.ref := by
              intro he
              exact hri (mapGet c mR n.ref) (by rw [he]; exact List.mem_cons_self _ _)
            exact hc1ne r hrne
          · intro r i hri
            rcases List.mem_cons.mp hri with he | htl
            · have h1 : r = n.ref := congrArg Prod.fst he
              subst h1
              exact hc1self
            · cases htl
          · intro j hj
            have hjid : j ≠ mapGet c mR n.ref :=
              hj n.ref (mapGet c mR n.ref) (List.mem_cons_self _ _)
            refine ⟨?_, by rw [hcr1]⟩
            rw [hc1id, aget_aremove_ne _ _ _ hjid]
          · intro r i hri
            rcases List.mem_cons.mp hri with he | htl
            · have h1 : r = n.ref := congrArg Prod.fst he
              have h2 : i = mapGet c mR n.ref := congrArg Prod.snd he
              subst h1
              subst h2
              refine ⟨?_, ?_⟩
              · rw [hc1id, aget_aremove_self]
              · rw [hcr1]
                exact hm
            · cases htl
          · intro mR' r hne
            exact hc1other mR' r hne
  exact fun n => H n.sz n le_rfl

end InspectorDOM

namespace InspectorDOM

theorem visDesc_self (n : DomTree) : n ∈ visDesc n := by
  rw [visDesc]
  exact List.mem_cons_self _ _

theorem visDescList_of_mem {t : DomTree} {ts : List DomTree} (ht : t ∈ ts) :
    ∀ x, x ∈ visDesc t → x ∈ visDescList ts := by
  induction ts with
  | nil => cases ht
  | cons y ys ih =>
    intro x hx
    rw [visDescList]
    rcases List.mem_cons.mp ht with rfl | ht2
    · exact List.mem_append_left _ hx
    · exact List.mem_append_right _ (ih ht2 x hx)

theorem visDesc_child {n t : DomTree} (ht : t ∈ visChildren n) :
    ∀ x, x ∈ visDesc t → x ∈ visDesc n := by
  intro x hx
  rw [visDesc]
  exact List.mem_cons_of_mem _ (visDescList_of_mem ht x hx)

theorem specReachList_split {c : Core} {mR : Nat} {ts : List DomTree} {u : DomTree}
    (h : u ∈ specReachList c mR ts) : ∃ t ∈ ts, u ∈ specReach c mR t := by
  induction ts with
  | nil =>
    rw [specReachList] at h
    cases h
  | cons t rest ih =>
    rw [specReachList] at h
    rcases List.mem_append.mp h with h2 | h2
    · exact ⟨t, List.mem_cons_self _ _, h2⟩
    · obtain ⟨x, hx, hu⟩ := ih h2
      exact ⟨x, List.mem_cons_of_mem _ hx, hu⟩

theorem specReach_chunk {c : Core} {mR : Nat} {t : DomTree} {ts : List DomTree}
    (ht : t ∈ ts) {u : DomTree} (hu : u ∈ specReach c mR t) :
    u ∈ specReachList c mR ts := by
  induction ts with
  | nil => cases ht
  | cons y ys ih =>
    rw [specReachList]
    rcases List.mem_cons.mp ht with rfl | ht2
    · exact List.mem_append_left _ hu
    · exact List.mem_append_right _ (ih ht2)

theorem reach_chunk {c : Core} {mR : Nat} {t : DomTree} {ts : List DomTree}
    (ht : t ∈ ts) {p : Nat × Nat} (hp : p ∈ reach c mR t) :
    p ∈ reachList c mR ts := by
  induction ts with
  | nil => cases ht
  | cons y ys ih =>
    rw [reachList]
    rcases List.mem_cons.mp ht with rfl | ht2
    · exact List.mem_append_left _ hp
    · exact List.mem_append_right _ (ih ht2)

theorem reachList_split {c : Core} {mR : Nat} {ts : List DomTree} {p : Nat × Nat}
    (h : p ∈ reachList c mR ts) : ∃ t ∈ ts, p ∈ reach c mR t := by
  induction ts with
  | nil =>
    rw [reachList] at h
    cases h
  | cons t rest ih =>
    rw [reachList] at h
    rcases List.mem_append.mp h with h2 | h2
    · exact ⟨t, List.mem_cons_self _ _, h2⟩
    · obtain ⟨x, hx, hp⟩ := ih h2
      exact ⟨x, List.mem_cons_of_mem _ hx, hp⟩

theorem specReach_sub_visDesc : ∀ (n : DomTree) (c : Core) (mR : Nat) (u : DomTree),
    u ∈ specReach c mR n → u ∈ visDesc n := by
  have H : ∀ k (n : DomTree), n.sz ≤ k → ∀ (c : Core) (mR : Nat) (u : DomTree),
      u ∈ specReach c mR n → u ∈ visDesc n := by
    intro k
    induction k with
    | zero =>
      intro n hn
      have := sz_pos n
      omega
    | succ k ih =>
      intro n hn c mR u hu
      rw [specReach] at hu
      split at hu
      · rcases List.mem_cons.mp hu with rfl | h2
        · exact visDesc_self _
        · cases h2
      · rcases List.mem_cons.mp hu with rfl | h2
        · exact visDesc_self _
        · obtain ⟨t, htv, hut⟩ := specReachList_split h2
          have hsz := sz_mem_visChildren_lt htv
          exact visDesc_child htv u (ih t (by omega) c mR u hut)
  exact fun n => H n.sz n le_rfl

/-- Every node the specification's removal set names with a live id is a
pair the code's removal recursion visits. -/
theorem spec_to_reach : ∀ (n : DomTree) (c : Core) (mR : Nat),
    (∀ t ∈ visDesc n, mapGet c mR t.ref = 0 → ∀ u ∈ visDesc t, mapGet c mR u.ref = 0) →
    ∀ u ∈ specReach c mR n, mapGet c mR u.ref ≠ 0 →
      (u.ref, mapGet c mR u.ref) ∈ reach c mR n := by
  have H : ∀ k (n : DomTree), n.sz ≤ k → ∀ (c : Core) (mR : Nat),
      (∀ t ∈ visDesc n, mapGet c mR t.ref = 0 → ∀ u ∈ visDesc t, mapGet c mR u.ref = 0) →
      ∀ u ∈ specReach c mR n, mapGet c mR u.ref ≠ 0 →
        (u.ref, mapGet c mR u.ref) ∈ reach c mR n := by
    intro k
    induction k with
    | zero =>
      intro n hn
      have := sz_pos n
      omega
    | succ k ih =>
      intro n hn c mR hdc u hu hz
      by_cases h0 : mapGet c mR n.ref = 0
      · exact absurd (hdc n (visDesc_self n) h0 u
          (specReach_sub_visDesc n c mR u hu)) hz
      · by_cases hm : mapGet c mR n.ref ∈ c.childrenRequested
        · rw [specReach, if_neg (fun hc => hc.2 hm)] at hu
          rw [reach, if_neg h0, if_pos hm]
          rcases List.mem_cons.mp hu with rfl | h2
          · exact List.mem_cons_self _ _
          · obtain ⟨t, htv, hut⟩ := specReachList_split h2
            have hsz := sz_mem_visChildren_lt htv
            have hdct : ∀ t' ∈ visDesc t, mapGet c mR t'.ref = 0 →
                ∀ u' ∈ visDesc t', mapGet c mR u'.ref = 0 :=
              fun t' ht' => hdc t' (visDesc_child htv t' ht')
            exact List.mem_cons_of_mem _
              (reach_chunk htv (ih t (by omega) c mR hdct u hut hz))
        · rw [specReach, if_pos ⟨h0, hm⟩] at hu
          rw [reach, if_neg h0, if_neg hm]
          rcases List.mem_cons.mp hu with rfl | h2
          · exact List.mem_cons_self _ _
          · cases h2
  exact fun n => H n.sz n le_rfl

/-- Conversely, every pair the code removes names a node of the
specification's removal set. -/
theorem reach_to_spec : ∀ (n : DomTree) (c : Core) (mR : Nat) (r i : Nat),
    (r, i) ∈ reach c mR n → ∃ u ∈ specReach c mR n, u.ref = r := by
  have H : ∀ k (n : DomTree), n.sz ≤ k → ∀ (c : Core) (mR : Nat) (r i : Nat),
      (r, i) ∈ reach c mR n → ∃ u ∈ specReach c mR n, u.ref = r := by
    intro k
    induction k with
    | zero =>
      intro n hn
      have := sz_pos n
      omega
    | succ k ih =>
      intro n hn c mR r i hp
      rw [reach] at hp
      by_cases h0 : mapGet c mR n.ref = 0
      · rw [if_pos h0] at hp
        cases hp
      · rw [if_neg h0] at hp
        by_cases hm : mapGet c mR n.ref ∈ c.childrenRequested
        · rw [if_pos hm] at hp
          rw [specReach, if_neg (fun hc => hc.2 hm)]
          rcases List.mem_cons.mp hp with he | h2
          · exact ⟨n, List.mem_cons_self _ _, (congrArg Prod.fst he).symm⟩
          · obtain ⟨t, htv, hpt⟩ := reachList_split h2
            have hsz := sz_mem_visChildren_lt htv
            obtain ⟨u, hu, hur⟩ := ih t (by omega) c mR r i hpt
            exact ⟨u, List.mem_cons_of_mem _ (specReach_chunk htv hu), hur⟩
        · rw [if_neg hm] at hp
          rw [specReach, if_pos ⟨h0, hm⟩]
          rcases List.mem_cons.mp hp with he | h2
          · exact ⟨n, List.mem_cons_self _ _, (congrArg Prod.fst he).symm⟩
          · cases h2
  exact fun n => H n.sz n le_rfl

end InspectorDOM

namespace InspectorDOM


/-- C3 (claim): unbind transitivity.  For a node bound in the map with
disclosed children — under globally distinct references, injective nonzero
ids and downward-closed binding along the visible-child view — `unbind`
clears the binding of the node and of every descendant in the
specification's reachable set from the map, removes each of their live ids
from the global index and from the disclosure set, and touches nothing
else: bindings of references outside the set, index entries and disclosure
flags of other ids, and all other identity maps are unchanged. -/
theorem claim_C3_unbind_transitive (c : Core) (n : DomTree) (mR : Nat)
    (hv : validMapRef c mR) (hnd : (treeRefs n).Nodup)
    (hinj : injIds c mR (treeRefs n))
    (hdc : ∀ t ∈ visDesc n, mapGet c mR t.ref = 0 →
      ∀ u ∈ visDesc t, mapGet c mR u.ref = 0)
    (hb : mapGet c mR n.ref ≠ 0)
    (hdis : mapGet c mR n.ref ∈ c.childrenRequested) :
    (∀ u ∈ specReach c mR n, mapGet (unbind c n mR) mR u.ref = 0) ∧
    (∀ u ∈ specReach c mR n, mapGet c mR u.ref ≠ 0 →
      aget (unbind c n mR).idToNode (mapGet c mR u.ref) = none ∧
      mapGet c mR u.ref ∉ (unbind c n mR).childrenRequested) ∧
    (∀ r, (∀ u ∈ specReach c mR n, r ≠ u.ref) →
      mapGet (unbind c n mR) mR r = mapGet c mR r) ∧
    (∀ j, (∀ u ∈ specReach c mR n, j ≠ mapGet c mR u.ref) →
      aget (unbind c n mR).idToNode j = aget c.idToNode j ∧
      (j ∈ (unbind c n mR).childrenRequested ↔ j ∈ c.childrenRequested)) ∧
    (∀ mR' r, mR' ≠ mR → mapGet (unbind c n mR) mR' r = mapGet c mR' r) := by
  have UR := unbind_reach n c mR hv hnd hinj
  refine ⟨?_, ?_, ?_, ?_, UR.2.2.2.2⟩
  · intro u hu
    by_cases hz : mapGet c mR u.ref = 0
    · rcases ((unbind_mono.1 n c mR).1 mR u.ref) with h | h
      · rw [h]
        exact hz
      · exact h
    · exact UR.2.1 u.ref (mapGet c mR u.ref) (spec_to_reach n c mR hdc u hu hz)
  · intro u hu hz
    exact UR.2.2.2.1 u.ref (mapGet c mR u.ref) (spec_to_reach n c mR hdc u hu hz)
  · intro r hr
    refine UR.1 r ?_
    intro i hri
    obtain ⟨u, hu, hur⟩ := reach_to_spec n c mR r i hri
    exact hr u hu hur.symm
  · intro j hj
    refine UR.2.2.1 j ?_
    intro r i hri he
    obtain ⟨u, hu, hur⟩ := reach_to_spec n c mR r i hri
    have hp := reach_pairs n c mR (r, i) hri
    exact hj u hu (by rw [he]; show i = mapGet c mR u.ref; rw [hur]; exact hp.2.1)

/-- C3 witness: the claim applied to a bound, disclosed body element whose
div and span children are bound and whose whitespace text child is not. -/
theorem claim_C3_witness :
    validMapRef c3w 0 ∧ (treeRefs bodyW).Nodup ∧ injIds c3w 0 (treeRefs bodyW) ∧
    (∀ t ∈ visDesc bodyW, mapGet c3w 0 t.ref = 0 →
      ∀ u ∈ visDesc t, mapGet c3w 0 u.ref = 0) ∧
    mapGet c3w 0 bodyW.ref ≠ 0 ∧ mapGet c3w 0 bodyW.ref ∈ c3w.childrenRequested ∧
    ((∀ u ∈ specReach c3w 0 bodyW, mapGet (unbind c3w bodyW 0) 0 u.ref = 0) ∧
     (∀ u ∈ specReach c3w 0 bodyW, mapGet c3w 0 u.ref ≠ 0 →
       aget (unbind c3w bodyW 0).idToNode (mapGet c3w 0 u.ref) = none ∧
       mapGet c3w 0 u.ref ∉ (unbind c3w bodyW 0).childrenRequested) ∧
     (∀ r, (∀ u ∈ specReach c3w 0 bodyW, r ≠ u.ref) →
       mapGet (unbind c3w bodyW 0) 0 r = mapGet c3w 0 r) ∧
     (∀ j, (∀ u ∈ specReach c3w 0 bodyW, j ≠ mapGet c3w 0 u.ref) →
       aget (unbind c3w bodyW 0).idToNode j = aget c3w.idToNode j ∧
       (j ∈ (unbind c3w bodyW 0).childrenRequested ↔ j ∈ c3w.childrenRequested)) ∧
     (∀ mR' r, mR' ≠ 0 → mapGet (unbind c3w bodyW 0) mR' r = mapGet c3w mR' r)) := by
  have hrefs : treeRefs bodyW = [3, 4, 5, 6] := by
    simp [bodyW, divW, wsW, spanW, treeRefs, treeRefsOpt, treeRefsList]
  have hv : validMapRef c3w 0 := Or.inl rfl
  have hnd : (treeRefs bodyW).Nodup := by
    rw [hrefs]
    decide
  have hinj : injIds c3w 0 (treeRefs bodyW) := by
    rw [hrefs]
    intro r1 h1 r2 h2
    fin_cases h1 <;> fin_cases h2 <;> decide
  have hvd : visDesc bodyW = [bodyW, divW, spanW] := by
    simp [bodyW, divW, wsW, spanW, visDesc, visDescList, visChildren, isWs,
      stripWhiteSpace, isSpaceChar, DomTree.frameOwner, DomTree.contentDoc,
      DomTree.children, DomTree.kind, DomTree.value]
  have hdc : ∀ t ∈ visDesc bodyW, mapGet c3w 0 t.ref = 0 →
      ∀ u ∈ visDesc t, mapGet c3w 0 u.ref = 0 := by
    intro t ht h0
    rw [hvd] at ht
    rcases List.mem_cons.mp ht with rfl | ht
    · exact absurd h0 (by decide)
    rcases List.mem_cons.mp ht with rfl | ht
    · exact absurd h0 (by decide)
    rcases List.mem_cons.mp ht with rfl | ht
    · exact absurd h0 (by decide)
    cases ht
  have hb : mapGet c3w 0 bodyW.ref ≠ 0 := by decide
  have hdis : mapGet c3w 0 bodyW.ref ∈ c3w.childrenRequested := by decide
  exact ⟨hv, hnd, hinj, hdc, hb, hdis,
    claim_C3_unbind_transitive c3w bodyW 0 hv hnd hinj hdc hb hdis⟩

end InspectorDOM
